import Mathlib

/-!
Shallow embedding of the FactGap PR-reviewer RAG pipeline
(retrieval, intent classification, reranking, batch embedding,
content hashing, chunk upsert and file discovery), translated from
the Python sources under `apps/api/app/services/rag/`, `factgap/db/`
and `factgap/discovery/`.

Python floats are modelled as rationals (`ℚ`), Python dicts holding
optional keys as structures of `Option` fields (`.get(k, d)` becomes
`Option.getD`), Python sets of matched keyword strings as deduplicated
lists, and fallible provider calls as `Except`/`Option` parameters.
-/

namespace FactGap

/-! ## Python string helpers (ASCII fragment)

The whole test surface of the claims is ASCII, so `str.lower`,
`str.split()`, `str.strip()` and the `\w`/`\b` regex classes are
modelled with their ASCII semantics (identical to CPython on ASCII
input). -/

/-- `\w` word characters of the regexes in `intent.py`: `[a-zA-Z0-9_]`. -/
def isWordChar (c : Char) : Bool :=
  (97 ≤ c.toNat && c.toNat ≤ 122) || (65 ≤ c.toNat && c.toNat ≤ 90) ||
  (48 ≤ c.toNat && c.toNat ≤ 57) || c.toNat = 95

/-- Python whitespace recognised by `str.split()` / `str.strip()`. -/
def isPySpace (c : Char) : Bool :=
  c.toNat = 32 || c.toNat = 9 || c.toNat = 10 || c.toNat = 13 ||
  c.toNat = 11 || c.toNat = 12

/-- `str.lower()` on ASCII text. -/
def pyLower (s : String) : String := ⟨s.data.map Char.toLower⟩

/-- Number of fields of Python `str.split()` (split on whitespace runs,
ignoring leading and trailing whitespace). -/
def pySplitCount (cs : List Char) (inWord : Bool) : Nat :=
  match cs with
  | [] => 0
  | c :: rest =>
    if isPySpace c then pySplitCount rest false
    else (if inWord then 0 else 1) + pySplitCount rest true

/-- `str.strip()` on ASCII text: drop leading and trailing whitespace. -/
def pyStrip (s : String) : String :=
  ⟨(s.data.dropWhile isPySpace).reverse.dropWhile isPySpace |>.reverse⟩

/-! ## Intent classification (`app/services/rag/intent.py`) -/

/-- `QueryIntent` enum. -/
inductive QueryIntent where
  | standards_policy
  | implementation_debug
  | process
  | general
deriving DecidableEq, Repr

/-- `INTENT_KEYWORDS[STANDARDS_POLICY]` (source-literal order). -/
def standardsPolicyKeywords : List String :=
  ["standard", "standards", "policy", "policies", "guideline", "guidelines",
   "convention", "conventions", "how do we", "how we", "best practice",
   "best practices", "naming", "lint", "linting", "style", "style guide",
   "code style", "formatting", "rule", "rules", "should we", "must we",
   "requirement", "requirements", "compliance", "compliant"]

/-- `INTENT_KEYWORDS[IMPLEMENTATION_DEBUG]` (source-literal order). -/
def implementationDebugKeywords : List String :=
  ["error", "errors", "bug", "bugs", "failing", "fail", "failed",
   "stack trace", "stacktrace", "traceback", "exception", "fix",
   "fixing", "why", "implement", "implementing", "implementation",
   "function", "class", "method", "how does", "how do i", "how to",
   "what does", "where is", "debug", "debugging", "issue", "problem",
   "broken", "crash", "crashing", "undefined", "null", "none",
   "typeerror", "valueerror", "keyerror", "attributeerror"]

/-- `INTENT_KEYWORDS[PROCESS]` (source-literal order). -/
def processKeywords : List String :=
  ["deploy", "deployment", "deploying", "incident", "incidents",
   "runbook", "runbooks", "pr process", "pull request process",
   "approval", "approvals", "approve", "merge", "merging",
   "release", "releasing", "rollback", "rollout", "pipeline",
   "ci", "cd", "ci/cd", "workflow", "workflows", "review process",
   "code review", "on-call", "oncall", "pager", "alert", "alerts"]

/-- The non-general entries of `INTENT_KEYWORDS`, in the dict's
insertion order (the iteration order of `classify`'s selection loop). -/
def INTENT_KEYWORDS : List (QueryIntent × List String) :=
  [(.standards_policy, standardsPolicyKeywords),
   (.implementation_debug, implementationDebugKeywords),
   (.process, processKeywords)]

/-- `INTENT_SCOPE_WEIGHTS`. -/
def INTENT_SCOPE_WEIGHTS (i : QueryIntent) : List (String × ℚ) :=
  match i with
  | .standards_policy =>
      [("notion", 3/2), ("repo_doc", 13/10), ("code", 7/10), ("diff", 1/2)]
  | .implementation_debug =>
      [("code", 3/2), ("diff", 7/5), ("repo_doc", 1), ("notion", 3/5)]
  | .process =>
      [("notion", 3/2), ("repo_doc", 7/5), ("code", 1/2), ("diff", 2/5)]
  | .general =>
      [("code", 1), ("diff", 1), ("repo_doc", 1), ("notion", 1)]

/-- `re` word boundary `\b` between an optional previous character and an
optional next character: holds when exactly one side is a word character. -/
def isBoundary (a b : Option Char) : Bool :=
  (a.map isWordChar |>.getD false) != (b.map isWordChar |>.getD false)

/-- One keyword alternative of the compiled pattern `\b(kw1|kw2|…)\b`
matches at the current position (`prev` is the character just before the
position, `rest` the remaining text): the keyword is a prefix of `rest`
and both surrounding `\b` assertions hold. -/
def kwMatchHere (kw : List Char) (prev : Option Char) (rest : List Char) : Bool :=
  kw.isPrefixOf rest && isBoundary prev kw.head? &&
  isBoundary kw.getLast? (rest.drop kw.length).head?

/-- The keyword matches (with word boundaries) at some position of the text. -/
def kwOccurs (kw : List Char) : Option Char → List Char → Bool
  | prev, rest =>
    kwMatchHere kw prev rest ||
    match rest with
    | [] => false
    | c :: cs => kwOccurs kw (some c) cs

/-- The set of distinct keyword strings of one intent that the pattern
finds in the lowercased query, as the (duplicate-free) sublist of the
intent's keyword table.  The Python side collects
`set(m.group().lower() for m in pattern.finditer(query_lower))`; since
each alternative is a literal keyword framed by `\b…\b`, the collected
strings are exactly the keywords that occur with word boundaries.
(Within one scan the regex engine's alternation order — the iteration
order of a Python `set` literal, which is process-seed dependent — can
pick one of two keywords that overlap at the same position; none of the
queries used below has such an overlap.) -/
def matchedKeywords (kws : List String) (query : String) : List String :=
  kws.filter (fun kw => kwOccurs kw.data none (pyLower query).data)

/-- `IntentResult` dataclass (`matched_keywords` as a duplicate-free list). -/
structure IntentResult where
  intent : QueryIntent
  confidence : ℚ
  matched_keywords : List String
  scope_weights : List (String × ℚ)
deriving DecidableEq, Repr

/-- The per-intent match sets computed at the top of `classify`. -/
def intentMatches (query : String) : List (QueryIntent × List String) :=
  INTENT_KEYWORDS.map (fun p => (p.1, matchedKeywords p.2 query))

/-- The `for intent, matches in intent_matches.items()` selection loop:
start from `(GENERAL, 0, ∅)` and replace the best whenever an intent has
strictly more matches. -/
def selectBest (ms : List (QueryIntent × List String)) :
    QueryIntent × Nat × List String :=
  ms.foldl
    (fun acc p =>
      if p.2.length > acc.2.1 then (p.1, p.2.length, p.2) else acc)
    (.general, 0, [])

/-- `IntentClassifier.classify`. -/
def classify (query : String) : IntentResult :=
  let query_words : Nat := pySplitCount query.data false
  let best := selectBest (intentMatches query)
  let confidence : ℚ :=
    if best.2.1 = 0 then 0
    else min 1 ((best.2.1 : ℚ) / max 1 ((query_words : ℚ) / 3))
  { intent := best.1
    confidence := confidence
    matched_keywords := best.2.2
    scope_weights := INTENT_SCOPE_WEIGHTS best.1 }

/-! ## Scoped retrieval (`app/services/rag/retrieval.py`) -/

/-- `ScopeType` enum. -/
inductive ScopeType where
  | pr_overlay
  | repo_docs
  | notion
deriving DecidableEq, Repr

/-- `ScopeType.value`. -/
def ScopeType.value : ScopeType → String
  | .pr_overlay => "pr_overlay"
  | .repo_docs => "repo_docs"
  | .notion => "notion"

/-- A row returned by the vector search RPC: a dict whose keys may be
absent, so every field is an `Option`; `.get(key, default)` accesses
become `Option.getD`. -/
structure ChunkRow where
  rowId : Option String := none
  source_type : Option String := none
  path : Option String := none
  url : Option String := none
  source_id : Option String := none
  content : Option String := none
  score : Option ℚ := none
deriving DecidableEq, Repr

/-- `RetrievalScope` dataclass (`filters` as explicit optional fields:
`search_scope` reads exactly the keys user_id/repo/pr_number/head_sha). -/
structure RetrievalScope where
  scope_type : ScopeType
  source_types : List String
  filter_user_id : Option String := none
  filter_repo : Option String := none
  filter_pr_number : Option Int := none
  filter_head_sha : Option String := none
  k : Nat := 30
  min_score : ℚ := 1/2
deriving DecidableEq, Repr

/-- `ScoredChunk` dataclass. -/
structure ScoredChunk where
  chunk : ChunkRow
  raw_score : ℚ
  normalized_score : ℚ
  weighted_score : ℚ
  scope_type : ScopeType
deriving DecidableEq, Repr

/-- `ScoredChunk.id` property: `self.chunk.get("id", "")`. -/
def ScoredChunk.idStr (sc : ScoredChunk) : String := sc.chunk.rowId.getD ""

/-- `ScoredChunk.source_type` property: `self.chunk.get("source_type", "")`. -/
def ScoredChunk.sourceType (sc : ScoredChunk) : String :=
  sc.chunk.source_type.getD ""

/-- `ScoredChunk.doc_key` property. -/
def ScoredChunk.docKey (sc : ScoredChunk) : String :=
  let st := sc.sourceType
  if st = "code" || st = "diff" || st = "repo_doc" then
    sc.chunk.path.getD "unknown"
  else if st = "notion" then
    (if sc.chunk.url.getD "" ≠ "" then sc.chunk.url.getD ""
     else sc.chunk.source_id.getD "unknown")
  else "unknown"

/-- `chunk.get("score", 0.0)`. -/
def ChunkRow.rawScore (c : ChunkRow) : ℚ := c.score.getD 0

/-- Python `min` over a non-empty list (the `[]` value is never used:
`normalize_scores` guards with `if not chunks`). -/
def listMin : List ℚ → ℚ
  | [] => 0
  | x :: xs => xs.foldl min x

/-- Python `max` over a non-empty list. -/
def listMax : List ℚ → ℚ
  | [] => 0
  | x :: xs => xs.foldl max x

/-- `ScopedRetriever.normalize_scores`. -/
def normalize_scores (chunks : List ChunkRow) (scope_type : ScopeType) :
    List ScoredChunk :=
  match chunks with
  | [] => []
  | _ =>
    let scores := chunks.map ChunkRow.rawScore
    let min_score := listMin scores
    let max_score := listMax scores
    let score_range := max_score - min_score
    chunks.map (fun chunk =>
      let raw_score := chunk.rawScore
      let normalized : ℚ :=
        if score_range > 0 then (raw_score - min_score) / score_range else 1
      { chunk := chunk
        raw_score := raw_score
        normalized_score := normalized
        weighted_score := normalized
        scope_type := scope_type })

/-- `weights.get(source_type, 1.0)` on the association-list model of the
`scope_weights` dict. -/
def weightFor (weights : List (String × ℚ)) (source_type : String) : ℚ :=
  ((weights.find? (fun p => p.1 = source_type)).map Prod.snd).getD 1

/-- `ScopedRetriever.apply_intent_weights`. -/
def apply_intent_weights (scored_chunks : List ScoredChunk)
    (intent_result : IntentResult) : List ScoredChunk :=
  scored_chunks.map (fun sc =>
    { sc with
      weighted_score := sc.normalized_score * weightFor intent_result.scope_weights sc.sourceType })

/-- The `seen_ids` deduplication loop of `merge_and_sort`:
keep the first chunk carrying each id string. -/
def dedupById (seen : List String) : List ScoredChunk → List ScoredChunk
  | [] => []
  | sc :: rest =>
    if sc.idStr ∈ seen then dedupById seen rest
    else sc :: dedupById (sc.idStr :: seen) rest

/-- `ScopedRetriever.merge_and_sort` (`list.sort(key=weighted_score,
reverse=True)` is a stable descending sort, modelled by the stable
`List.mergeSort` with the reversed comparison). -/
def merge_and_sort (all_chunks : List ScoredChunk) (top_k : Nat := 40) :
    List ScoredChunk :=
  ((dedupById [] all_chunks).mergeSort
    (fun a b => decide (b.weighted_score ≤ a.weighted_score))).take top_k

/-- `ScopedRetriever.build_scopes`. -/
def build_scopes (user_id : String) (repo : Option String)
    (pr_number : Option Int) (head_sha : Option String) :
    List RetrievalScope :=
  (match pr_number with
   | some prn =>
     [{ scope_type := .pr_overlay
        source_types := ["code", "diff"]
        filter_user_id := some user_id
        filter_repo := repo
        filter_pr_number := some prn
        filter_head_sha := head_sha }]
   | none => []) ++
  (match repo with
   | some r =>
     [{ scope_type := .repo_docs
        source_types := ["code", "repo_doc"]
        filter_user_id := some user_id
        filter_repo := some r }]
   | none => []) ++
  [{ scope_type := .notion
     source_types := ["notion"]
     filter_user_id := some user_id }]

/-- `ScopedRetriever.search_scope`: the RPC call is a parameter that
either returns rows or raises; the `except` clause turns a raise into
an empty result list. -/
def search_scope (callResult : Except String (List ChunkRow)) :
    List ChunkRow :=
  match callResult with
  | .ok rows => rows
  | .error _ => []

/-- Per-scope entry of the `stats["scopes"]` dict. -/
structure ScopeStats where
  count : Nat
  source_types : List String
  score_min : Option ℚ := none
  score_max : Option ℚ := none
  score_mean : Option ℚ := none
deriving DecidableEq, Repr

/-- The `stats` dict built by `retrieve`. -/
structure RetrieveStats where
  query_length : Nat
  intent : String
  intent_confidence : ℚ
  scopes : List (String × ScopeStats)
  total_candidates : Nat
  merged_candidates : Nat
deriving DecidableEq, Repr

/-- `QueryIntent.value`. -/
def QueryIntent.value : QueryIntent → String
  | .standards_policy => "standards_policy"
  | .implementation_debug => "implementation_debug"
  | .process => "process"
  | .general => "general"

/-- Stats recorded for one scope's raw results. -/
def scopeStatsOf (scope : RetrievalScope) (results : List ChunkRow) :
    ScopeStats :=
  match results with
  | [] => { count := 0, source_types := scope.source_types }
  | _ =>
    let raw := results.map (fun r => r.score.getD 0)
    { count := results.length
      source_types := scope.source_types
      score_min := some (listMin raw)
      score_max := some (listMax raw)
      score_mean := some (raw.sum / (results.length : ℚ)) }

/-- `ScopedRetriever.retrieve`.  `searchFn` stands for the
`supabase.rpc(...)` call issued by `search_scope` for a given query
embedding and scope (`.error` = the call raised); `embedFn` is
`self.embed_func`; `enableIntentRouting` is the
`FACTGAP_ENABLE_INTENT_ROUTING` feature flag. -/
def retrieve (enableIntentRouting : Bool)
    (embedFn : String → List ℚ)
    (searchFn : List ℚ → RetrievalScope → Except String (List ChunkRow))
    (query : String) (user_id : String)
    (repo : Option String := none) (pr_number : Option Int := none)
    (head_sha : Option String := none) (top_k : Nat := 40) :
    List ScoredChunk × IntentResult × RetrieveStats :=
  let intent_result :=
    if enableIntentRouting then classify query
    else
      { intent := .general, confidence := 0, matched_keywords := []
        scope_weights :=
          [("code", 1), ("diff", 1), ("repo_doc", 1), ("notion", 1)] }
  let query_embedding := embedFn query
  let scopes := build_scopes user_id repo pr_number head_sha
  let step := fun (acc : List ScoredChunk × List (String × ScopeStats))
                  (scope : RetrievalScope) =>
    let results := search_scope (searchFn query_embedding scope)
    let scored := normalize_scores results scope.scope_type
    let scored :=
      if enableIntentRouting then apply_intent_weights scored intent_result
      else scored
    (acc.1 ++ scored,
     acc.2 ++ [(scope.scope_type.value, scopeStatsOf scope results)])
  let folded := scopes.foldl step ([], [])
  let all_scored_chunks := folded.1
  let candidates := merge_and_sort all_scored_chunks top_k
  (candidates, intent_result,
   { query_length := query.length
     intent := intent_result.intent.value
     intent_confidence := intent_result.confidence
     scopes := folded.2
     total_candidates := all_scored_chunks.length
     merged_candidates := candidates.length })

/-! ## Reranking and diversity (`app/services/rag/reranker.py`) -/

def MAX_CHUNKS_PER_DOC : Nat := 2
def MIN_DISTINCT_SOURCES : Nat := 2

/-- `RerankerResult` dataclass. -/
structure RerankerResult where
  chunks : List ScoredChunk
  rerank_scores : List ℚ
  rerank_reasons : List String
  method : String
  distinct_sources : Option Nat := none
deriving DecidableEq, Repr

/-- The greedy selection loop of `_apply_diversity`: walk the chunks in
order, break once `top_k` are selected, skip a chunk whose `doc_key`
already reached `MAX_CHUNKS_PER_DOC`, otherwise admit it and bump its
count (the `doc_counts` dict with `.get(key, 0)` access is modelled
extensionally as a function `String → Nat`). -/
def diversitySelect (top_k : Nat) :
    List ScoredChunk → (String → Nat) → Nat → List ScoredChunk
  | [], _, _ => []
  | sc :: rest, doc_counts, nsel =>
    if top_k ≤ nsel then []
    else if MAX_CHUNKS_PER_DOC ≤ doc_counts sc.docKey then
      diversitySelect top_k rest doc_counts nsel
    else
      sc :: diversitySelect top_k rest
        (fun key => if key = sc.docKey then doc_counts key + 1 else doc_counts key)
        (nsel + 1)

/-- `Reranker._apply_diversity` (the `ENABLE_DIVERSITY` feature flag is a
parameter; `distinct_sources` models the stats field of that name). -/
def apply_diversity (enableDiversity : Bool) (chunks : List ScoredChunk)
    (top_k : Nat) (method : String) : RerankerResult :=
  if !enableDiversity then
    { chunks := chunks.take top_k
      rerank_scores := List.replicate (min top_k chunks.length) 1
      rerank_reasons := List.replicate (min top_k chunks.length) "no_diversity"
      method := method }
  else
    let selected := diversitySelect top_k chunks (fun _ => 0) 0
    { chunks := selected
      rerank_scores := selected.map (fun sc => sc.weighted_score)
      rerank_reasons :=
        selected.map (fun sc => "doc=" ++ ⟨sc.docKey.data.take 30⟩)
      method := method
      distinct_sources := some (selected.map ScoredChunk.sourceType).dedup.length }

/-- `Reranker.rerank`.  The two provider tiers are parameters:
`cohereOutcome` is the result of `_rerank_cohere` when a Cohere API key
is configured (`none` when the call raised), `llmOutcome` likewise for
`_rerank_llm` when an OpenAI client is configured — the chunk lists they
return (including `_rerank_llm`'s internal parse-error fallback) are the
`result.chunks` the source feeds to `_apply_diversity`. -/
def rerank (enableRerank enableDiversity : Bool)
    (cohereOutcome : Option (Option (List ScoredChunk)))
    (llmOutcome : Option (Option (List ScoredChunk)))
    (candidates : List ScoredChunk) (top_k : Nat := 8) : RerankerResult :=
  if !enableRerank || candidates = [] then
    apply_diversity enableDiversity (candidates.take (top_k * 2)) top_k
      "passthrough"
  else
    match cohereOutcome with
    | some (some reranked) =>
        apply_diversity enableDiversity reranked top_k "cohere"
    | _ =>
      match llmOutcome with
      | some (some reranked) =>
          apply_diversity enableDiversity reranked top_k "llm"
      | _ =>
          apply_diversity enableDiversity (candidates.take (top_k * 2)) top_k
            "passthrough"

/-! ## SHA-256 and UTF-8 (`hashlib.sha256(content.encode("utf-8")).hexdigest()`) -/

/-- Truncate to a 32-bit word. -/
def w32 (n : Nat) : Nat := n % 4294967296

/-- 32-bit right rotation (argument assumed < 2^32). -/
def rotr32 (x n : Nat) : Nat := w32 ((x >>> n) ||| (x <<< (32 - n)))

def shaCh (x y z : Nat) : Nat := (x &&& y) ^^^ ((x ^^^ 4294967295) &&& z)
def shaMaj (x y z : Nat) : Nat := (x &&& y) ^^^ (x &&& z) ^^^ (y &&& z)
def shaBigSigma0 (x : Nat) : Nat := rotr32 x 2 ^^^ rotr32 x 13 ^^^ rotr32 x 22
def shaBigSigma1 (x : Nat) : Nat := rotr32 x 6 ^^^ rotr32 x 11 ^^^ rotr32 x 25
def shaSmallSigma0 (x : Nat) : Nat := rotr32 x 7 ^^^ rotr32 x 18 ^^^ (x >>> 3)
def shaSmallSigma1 (x : Nat) : Nat := rotr32 x 17 ^^^ rotr32 x 19 ^^^ (x >>> 10)

/-- SHA-256 round constants (FIPS 180-4, written in decimal). -/
def shaK : List Nat :=
  [1116352408, 1899447441, 3049323471, 3921009573, 961987163,
   1508970993, 2453635748, 2870763221, 3624381080, 310598401,
   607225278, 1426881987, 1925078388, 2162078206, 2614888103,
   3248222580, 3835390401, 4022224774, 264347078, 604807628,
   770255983, 1249150122, 1555081692, 1996064986, 2554220882,
   2821834349, 2952996808, 3210313671, 3336571891, 3584528711,
   113926993, 338241895, 666307205, 773529912, 1294757372,
   1396182291, 1695183700, 1986661051, 2177026350, 2456956037,
   2730485921, 2820302411, 3259730800, 3345764771, 3516065817,
   3600352804, 4094571909, 275423344, 430227734, 506948616,
   659060556, 883997877, 958139571, 1322822218, 1537002063,
   1747873779, 1955562222, 2024104815, 2227730452, 2361852424,
   2428436474, 2756734187, 3204031479, 3329325298]

/-- SHA-256 initial hash value (FIPS 180-4, written in decimal). -/
def shaH0 : List Nat :=
  [1779033703, 3144134277, 1013904242, 2773480762,
   1359893119, 2600822924, 528734635, 1541459225]

/-- Group bytes into big-endian 32-bit words. -/
def bytesToWords : List Nat → List Nat
  | b0 :: b1 :: b2 :: b3 :: rest =>
      (b0 * 16777216 + b1 * 65536 + b2 * 256 + b3) :: bytesToWords rest
  | _ => []

/-- Extend the 16 block words to the 64-entry message schedule. -/
def shaSchedule (ws : List Nat) : List Nat :=
  (List.range 48).foldl
    (fun acc _ =>
      acc ++ [w32 (shaSmallSigma1 (acc.getD (acc.length - 2) 0) +
                   acc.getD (acc.length - 7) 0 +
                   shaSmallSigma0 (acc.getD (acc.length - 15) 0) +
                   acc.getD (acc.length - 16) 0)])
    ws

/-- One SHA-256 round on the `[a,b,c,d,e,f,g,h]` working state. -/
def shaRound (st : List Nat) (kw : Nat) : List Nat :=
  let a := st.getD 0 0
  let b := st.getD 1 0
  let c := st.getD 2 0
  let d := st.getD 3 0
  let e := st.getD 4 0
  let f := st.getD 5 0
  let g := st.getD 6 0
  let h := st.getD 7 0
  let t1 := w32 (h + shaBigSigma1 e + shaCh e f g + kw)
  let t2 := w32 (shaBigSigma0 a + shaMaj a b c)
  [w32 (t1 + t2), a, b, c, w32 (d + t1), e, f, g]

/-- Compress one 64-byte block into the running hash. -/
def shaCompress (h : List Nat) (block : List Nat) : List Nat :=
  let ws := shaSchedule (bytesToWords block)
  let kws := (shaK.zip ws).map (fun p => w32 (p.1 + p.2))
  let final := kws.foldl shaRound h
  (h.zip final).map (fun p => w32 (p.1 + p.2))

/-- SHA-256 padding: `0x80`, zeros to 56 mod 64, 8-byte big-endian bit length. -/
def shaPad (msg : List Nat) : List Nat :=
  let L := 8 * msg.length
  let padZeros := (64 + 56 - (msg.length + 1) % 64) % 64
  msg ++ [128] ++ List.replicate padZeros 0 ++
    [L / 72057594037927936 % 256, L / 281474976710656 % 256,
     L / 1099511627776 % 256, L / 4294967296 % 256,
     L / 16777216 % 256, L / 65536 % 256, L / 256 % 256, L % 256]

/-- The `texts[i:i+batch_size]` slices of `range(0, len(texts), batch_size)`
(also used to cut a padded SHA-256 message into 64-byte blocks).  Only
meaningful for a positive step, as in the source (`range` raises on 0). -/
def toBatches (b : Nat) (l : List α) : List (List α) :=
  match l with
  | [] => []
  | x :: xs =>
    if b = 0 then []
    else (x :: xs).take b :: toBatches b ((x :: xs).drop b)
termination_by l.length
decreasing_by
  simp only [List.length_drop, List.length_cons]
  omega

/-- SHA-256 of a byte list, as the eight 32-bit hash words. -/
def sha256 (msg : List Nat) : List Nat :=
  (toBatches 64 (shaPad msg)).foldl shaCompress shaH0

/-- Lowercase hex digit. -/
def hexChar (n : Nat) : Char :=
  if n < 10 then Char.ofNat (48 + n) else Char.ofNat (87 + n)

/-- Eight hex characters of one 32-bit word. -/
def wordToHex (w : Nat) : List Char :=
  [hexChar (w / 268435456 % 16), hexChar (w / 16777216 % 16),
   hexChar (w / 1048576 % 16), hexChar (w / 65536 % 16),
   hexChar (w / 4096 % 16), hexChar (w / 256 % 16),
   hexChar (w / 16 % 16), hexChar (w % 16)]

/-- `hashlib.sha256(bytes).hexdigest()`. -/
def sha256_hexdigest (msg : List Nat) : String :=
  ⟨(sha256 msg).flatMap wordToHex⟩

/-- `str.encode("utf-8")` of one character. -/
def utf8EncodeChar (c : Char) : List Nat :=
  if c.toNat < 128 then [c.toNat]
  else if c.toNat < 2048 then [192 + c.toNat / 64, 128 + c.toNat % 64]
  else if c.toNat < 65536 then
    [224 + c.toNat / 4096, 128 + c.toNat / 64 % 64, 128 + c.toNat % 64]
  else
    [240 + c.toNat / 262144, 128 + c.toNat / 4096 % 64,
     128 + c.toNat / 64 % 64, 128 + c.toNat % 64]

/-- `str.encode("utf-8")`. -/
def utf8Encode (s : String) : List Nat := s.data.flatMap utf8EncodeChar

/-- `compute_content_hash` of `app/services/rag/embeddings.py`:
SHA-256 hex digest of the raw content's UTF-8 bytes. -/
def compute_content_hash (content : String) : String :=
  sha256_hexdigest (utf8Encode content)

/-- `SupabaseManager.compute_content_hash` of `factgap/db/supabase_client.py`:
SHA-256 hex digest of `content.strip().lower()`. -/
def supabase_compute_content_hash (content : String) : String :=
  sha256_hexdigest (utf8Encode (pyLower (pyStrip content)))

/-! ## Batch embedder (`app/services/rag/embeddings.py`) -/

/-- `sorted(response.data, key=lambda x: x.index)`: Python's stable sort,
on the (index, embedding) pairs the provider returned for one batch. -/
def sortByIndex (data : List (Nat × List ℚ)) : List (Nat × List ℚ) :=
  data.mergeSort (fun x y => decide (x.1 ≤ y.1))

/-- `BatchEmbedder.embed_batch`.  `provider` stands for one
`openai_client.embeddings.create` call: it receives a batch of texts and
returns (index, embedding) response items in an order of its choosing. -/
def embed_batch (provider : List String → List (Nat × List ℚ))
    (batch_size : Nat) (texts : List String) : List (List ℚ) :=
  ((toBatches batch_size texts).map
    (fun batch => (sortByIndex (provider batch)).map Prod.snd)).flatten

/-- The number of provider calls `embed_batch` issues. -/
def embed_batch_calls (batch_size : Nat) (texts : List String) : Nat :=
  (toBatches batch_size texts).length

/-- `EmbedResult` dataclass with the fields of its `stats` dict inlined. -/
structure EmbedResult where
  embeddings : List (Option (List ℚ))
  skipped_indices : List Nat
  new_indices : List Nat
  total : Nat
  skipped : Nat
  embedded : Nat
  batch_count : Nat
deriving DecidableEq, Repr

/-- The `for i, (text, hash_val) in enumerate(zip(texts, content_hashes))`
loop: returns (texts_to_embed, text_indices, skipped_indices). -/
def splitBySkip (existing : List String) :
    List (String × String) → Nat → List String × List Nat × List Nat
  | [], _ => ([], [], [])
  | (t, h) :: rest, i =>
    let r := splitBySkip existing rest (i + 1)
    if h ∈ existing then (r.1, r.2.1, i :: r.2.2)
    else (t :: r.1, i :: r.2.1, r.2.2)

/-- `BatchEmbedder.embed_with_skip`.  `checkExisting` stands for the
existence check (the injected `check_existing_fn`, or the
`_check_existing_hashes` database lookup, both of which turn the hash
list into the list of already-stored hashes); `contentHashes` models the
optional pre-computed `content_hashes` argument. -/
def embed_with_skip (provider : List String → List (Nat × List ℚ))
    (batch_size : Nat) (checkExisting : List String → List String)
    (texts : List String) (contentHashes : Option (List String) := none) :
    EmbedResult :=
  match texts with
  | [] =>
    { embeddings := [], skipped_indices := [], new_indices := []
      total := 0, skipped := 0, embedded := 0, batch_count := 0 }
  | _ =>
    let content_hashes := contentHashes.getD (texts.map compute_content_hash)
    let existing_hashes := checkExisting content_hashes
    let split := splitBySkip existing_hashes (texts.zip content_hashes) 0
    let texts_to_embed := split.1
    let text_indices := split.2.1
    let skipped_indices := split.2.2
    let new_embeddings :=
      if texts_to_embed = [] then []
      else embed_batch provider batch_size texts_to_embed
    let embeddings :=
      (text_indices.zip new_embeddings).foldl
        (fun acc p => acc.set p.1 (some p.2))
        (List.replicate texts.length none)
    { embeddings := embeddings
      skipped_indices := skipped_indices
      new_indices := text_indices
      total := texts.length
      skipped := skipped_indices.length
      embedded := texts_to_embed.length
      batch_count :=
        if texts_to_embed = [] then 0
        else (texts_to_embed.length + batch_size - 1) / batch_size }

/-! ## Chunk upsert (`factgap/db/supabase_client.py`) -/

/-- `ChunkRecord` pydantic model (`datetime` as an opaque string tag). -/
structure ChunkRecord where
  recId : Option String := none
  repo : String
  pr_number : Option Int := none
  head_sha : Option String := none
  source_type : String
  source_id : Option String := none
  path : Option String := none
  language : Option String := none
  symbol : Option String := none
  start_line : Option Int := none
  end_line : Option Int := none
  url : Option String := none
  last_edited_time : Option String := none
  content : String
  content_hash : String
  embedding : List ℚ := []
  embedding_model : String := "text-embedding-3-small"
deriving DecidableEq, Repr

/-- A stored `rag_chunks` row, with exactly the columns `upsert_chunks`
inserts (`none` = column absent / SQL null). -/
structure DBRow where
  repo : String
  source_type : String
  content : String
  content_hash : String
  embedding : List ℚ
  embedding_model : String
  pr_number : Option Int := none
  head_sha : Option String := none
  source_id : Option String := none
  path : Option String := none
  language : Option String := none
  symbol : Option String := none
  start_line : Option Int := none
  end_line : Option Int := none
  url : Option String := none
  last_edited_time : Option String := none
deriving DecidableEq, Repr

/-- The duplicate-check `select` of `upsert_chunks`: always filters on
repo, source_type and content_hash; filters on pr_number/head_sha only
when the chunk has them (no constraint otherwise); and filters
path/start_line/end_line as equal-or-both-null. -/
def rowMatchesChunk (row : DBRow) (c : ChunkRecord) : Bool :=
  row.repo = c.repo && row.source_type = c.source_type &&
  row.content_hash = c.content_hash &&
  (match c.pr_number with
   | some p => row.pr_number = some p
   | none => true) &&
  (match c.head_sha with
   | some h => row.head_sha = some h
   | none => true) &&
  row.path = c.path &&
  row.start_line = c.start_line &&
  row.end_line = c.end_line

/-- The `insert_data` dict built for a new chunk. -/
def insertRow (c : ChunkRecord) : DBRow :=
  { repo := c.repo
    source_type := c.source_type
    content := c.content
    content_hash := c.content_hash
    embedding := c.embedding
    embedding_model := c.embedding_model
    pr_number := c.pr_number
    head_sha := c.head_sha
    source_id := c.source_id
    path := c.path
    language := c.language
    symbol := c.symbol
    start_line := c.start_line
    end_line := c.end_line
    url := c.url
    last_edited_time := c.last_edited_time }

/-- Result of `upsert_chunks`: the table rows after the call and the
`stats` dict. -/
structure UpsertOutcome where
  db : List DBRow
  upserted : Nat
  skipped : Nat
deriving DecidableEq, Repr

/-- One iteration of the `for chunk in chunks` loop of `upsert_chunks`:
run the duplicate-check query against the current table; skip on a hit,
insert otherwise. -/
def upsertStep (acc : UpsertOutcome) (c : ChunkRecord) : UpsertOutcome :=
  if acc.db.any (fun row => rowMatchesChunk row c) then
    { acc with skipped := acc.skipped + 1 }
  else
    { acc with db := acc.db ++ [insertRow c], upserted := acc.upserted + 1 }

/-- `SupabaseManager.upsert_chunks`, with the `rag_chunks` table made
explicit as a row list threaded through the per-chunk loop. -/
def upsert_chunks (db : List DBRow) (chunks : List ChunkRecord) :
    UpsertOutcome :=
  chunks.foldl upsertStep { db := db, upserted := 0, skipped := 0 }

/-- Two notion-page chunks that differ only in `source_id`, used in the
C8 counterexample. -/
def notionChunkA : ChunkRecord :=
  { repo := "r", source_type := "notion", source_id := some "pageA"
    content := "text", content_hash := "h" }

def notionChunkB : ChunkRecord :=
  { repo := "r", source_type := "notion", source_id := some "pageB"
    content := "text", content_hash := "h" }

/-- The identity key named by the spec: (`repo`, `source_type`,
`path` or `source_id`, `pr_number`, `head_sha`, `content_hash`).
Written from the spec's words, to be compared with the duplicate check
the code actually performs. -/
def specIdentityKey (c : ChunkRecord) :
    String × String × Option String × Option Int × Option String × String :=
  (c.repo, c.source_type,
   (match c.path with
    | some p => some p
    | none => c.source_id),
   c.pr_number, c.head_sha, c.content_hash)

/-! ## File discovery (`factgap/discovery/fast.py`) -/

/-- A file: base name plus its bytes (`stat().st_size` is the byte
count; `is_binary_file` reads the first 8192 bytes). -/
structure FSFile where
  name : String
  bytes : List Nat
deriving DecidableEq, Repr

mutual

/-- A directory tree; subdirectory and file lists are in the order
`os.walk` reports them (named-subdirectory lists are a dedicated mutual
inductive so that the walk below is plain structural recursion). -/
inductive FSDir where
  | mk (subdirs : FSDirChildren) (files : List FSFile)

/-- A list of named subdirectories. -/
inductive FSDirChildren where
  | nil
  | cons (name : String) (d : FSDir) (rest : FSDirChildren)

end

/-- The subdirectory names, in order. -/
def FSDirChildren.names : FSDirChildren → List String
  | .nil => []
  | .cons name _ rest => name :: rest.names

/-- `DiscoveryConfig` dataclass. -/
structure DiscoveryConfig where
  include_roots : List String
  ignore_globs : List String
  max_files : Nat
  max_chunks : Nat
  max_file_bytes : Nat
  include_tests : Bool
deriving DecidableEq, Repr

/-- `DiscoveryConfig.default()`. -/
def DiscoveryConfig.defaultConfig : DiscoveryConfig :=
  { include_roots :=
      ["factgap/", "apps/", "docs/", "adr/", ".github/", "README.md",
       "CLAUDE.md", "AGENTS.md", "SECURITY.md", "CONTRIBUTING.md"]
    ignore_globs :=
      ["node_modules/**", ".git/**", "dist/**", "build/**", ".next/**",
       "out/**", "coverage/**", "venv/**", ".venv/**", "__pycache__/**",
       ".pytest_cache/**", ".mypy_cache/**", ".ruff_cache/**", ".cache/**",
       "*.egg-info/**", "test-repo/**"]
    max_files := 800
    max_chunks := 5000
    max_file_bytes := 1048576
    include_tests := false }

/-- Python `str.replace(pat, rep)`: non-overlapping, left to right
(structural recursion on a character budget: every step consumes at
least one character, so a budget of the string's length is exact). -/
def replaceAllAux (pat rep : List Char) : Nat → List Char → List Char
  | _, [] => []
  | 0, cs => cs
  | fuel + 1, c :: cs =>
    if pat ≠ [] ∧ pat.isPrefixOf (c :: cs) then
      rep ++ replaceAllAux pat rep fuel (cs.drop (pat.length - 1))
    else c :: replaceAllAux pat rep fuel cs

def replaceAll (pat rep : List Char) (s : List Char) : List Char :=
  replaceAllAux pat rep s.length s

/-- An atom of the regex `matches_glob` builds: a literal character, the
any-character `.`, or `[^/]*`. -/
inductive GAtom where
  | lit (c : Char)
  | anyc
  | star
deriving DecidableEq, Repr

/-- Parse the converted pattern into atoms.  Every `[^/]*` in the
converted string comes from the `'*' → '[^/]*'` replacement, every other
`.` acts as the regex any-character (including the `.` of literal path
pieces such as `.git` — the conversion does not escape it). -/
def parseAtoms : List Char → List GAtom
  | '[' :: '^' :: '/' :: ']' :: '*' :: rest => .star :: parseAtoms rest
  | '.' :: rest => .anyc :: parseAtoms rest
  | c :: rest => .lit c :: parseAtoms rest
  | [] => []

/-- Anchored matching of the atom sequence against the whole string
(`re.match` with the `^...$` anchors `matches_glob` adds; path strings
contain no newline, so `$` is end-of-string). -/
def gmatchAux : Nat → List GAtom → List Char → Bool
  | 0, _, _ => false
  | fuel + 1, ats, s =>
    match ats, s with
    | [], [] => true
    | [], _ :: _ => false
    | .lit _ :: _, [] => false
    | .lit c :: ats, x :: xs => c = x && gmatchAux fuel ats xs
    | .anyc :: _, [] => false
    | .anyc :: ats, _ :: xs => gmatchAux fuel ats xs
    | .star :: ats, s =>
      gmatchAux fuel ats s ||
      match s with
      | [] => false
      | x :: xs => !(x = '/') && gmatchAux fuel (.star :: ats) xs

def gmatch (ats : List GAtom) (s : List Char) : Bool :=
  gmatchAux (ats.length + s.length + 1) ats s

/-- `matches_glob`: convert the glob with
`glob.replace('**', '.*').replace('*', '[^/]*')` and match anchored. -/
def matches_glob (path_str : String) (glob : String) : Bool :=
  let step1 := replaceAll ['*', '*'] ['.', '*'] glob.data
  let step2 := replaceAll ['*'] ['[', '^', '/', ']', '*'] step1
  gmatch (parseAtoms step2) path_str.data

/-- `is_hidden_directory` (dot-prefixed except `.github`). -/
def is_hidden_directory (name : String) : Bool :=
  (name.data.head? = some '.') && !(name = ".github")

/-- `should_ignore_directory` (its reason string is not modelled). -/
def should_ignore_directory (dirName : String) (relPath : String)
    (config : DiscoveryConfig) : Bool :=
  (is_hidden_directory dirName && !(dirName = ".github")) ||
  config.ignore_globs.any (fun glob =>
    matches_glob (relPath ++ "/") glob || matches_glob relPath glob)

/-- `should_ignore_file`. -/
def should_ignore_file (relPath : String) (config : DiscoveryConfig) : Bool :=
  config.ignore_globs.any (fun glob => matches_glob relPath glob)

/-- `is_binary_file`: a null byte within the first 8KB. -/
def is_binary_file (bytes : List Nat) : Bool :=
  (bytes.take 8192).contains 0

/-- `PurePath.suffix` of a base name: from the last `.`, provided it is
neither the first nor past the last character. -/
def pathSuffix (name : String) : String :=
  match (name.data.reverse.findIdx? (fun c => c = '.')).map
      (fun j => name.data.length - 1 - j) with
  | some i =>
    if 0 < i ∧ i < name.data.length - 1 then ⟨name.data.drop i⟩ else ""
  | none => ""

/-- `is_supported_extension`. -/
def is_supported_extension (name : String) : Bool :=
  pyLower (pathSuffix name) ∈
    [".py", ".js", ".ts", ".tsx", ".jsx", ".md", ".txt",
     ".go", ".rs", ".java", ".rb", ".php", ".c", ".cpp",
     ".h", ".hpp", ".cs", ".swift", ".kt", ".scala", ".yml",
     ".yaml", ".json", ".toml", ".ini", ".cfg", ".conf"]

/-- `sub in s` on character lists (used for `'test' in part.lower()`). -/
def containsSub (sub : List Char) : List Char → Bool
  | [] => sub.isPrefixOf []
  | c :: cs => sub.isPrefixOf (c :: cs) || containsSub sub cs

/-- `is_test_file`: `parts` are the components of the full path
(`file_path.parts`, so including the components of the repository root
itself); `filename` its final component. -/
def is_test_file (parts : List String) (filename : String) : Bool :=
  parts.any (fun part => containsSub "test".data (pyLower part).data) ||
  ("test_".data.isPrefixOf (pyLower filename).data ||
   "_test.py".data.isSuffixOf (pyLower filename).data ||
   ".test.".data.isSuffixOf (pyLower filename).data)

/-- The skip-reason counters plus totals of `FileDiscoveryStats`. -/
structure DiscoveryStats where
  dirs_visited : Nat := 0
  files_seen : Nat := 0
  files_included : Nat := 0
  ignored_dir_pruned : Nat := 0
  ignored_path : Nat := 0
  unsupported_ext : Nat := 0
  too_large : Nat := 0
  binary : Nat := 0
  cap_reached : Nat := 0
  outside_include_roots : Nat := 0
deriving DecidableEq, Repr

/-- Walk state: collected (repo-relative) file paths, stats, and whether
the `max_files` early `return` has fired. -/
structure WalkState where
  files : List String := []
  stats : DiscoveryStats := {}
  stopped : Bool := false
deriving DecidableEq, Repr

/-- Join path components with `/` (what `str(PurePath)` yields for the
relative paths the source builds). -/
def joinPath (comps : List String) : String :=
  String.intercalate "/" comps

/-- Per-file body of the walk loop in `discover_files`. -/
def processFile (config : DiscoveryConfig) (rootParts relComps : List String)
    (st : WalkState) (f : FSFile) : WalkState :=
  if st.stopped then st
  else if config.max_files ≤ st.stats.files_included then
    { st with
      stats := { st.stats with cap_reached := st.stats.cap_reached + 1 },
      stopped := true }
  else
    let relPath := joinPath (relComps ++ [f.name])
    let seen := { st.stats with files_seen := st.stats.files_seen + 1 }
    if should_ignore_file relPath config then
      { st with stats := { seen with ignored_path := seen.ignored_path + 1 } }
    else if !is_supported_extension f.name then
      { st with stats := { seen with
          unsupported_ext := seen.unsupported_ext + 1 } }
    else if !config.include_tests &&
        is_test_file (rootParts ++ relComps ++ [f.name]) f.name then
      { st with stats := { seen with ignored_path := seen.ignored_path + 1 } }
    else if config.max_file_bytes < f.bytes.length then
      { st with stats := { seen with too_large := seen.too_large + 1 } }
    else if is_binary_file f.bytes then
      { st with stats := { seen with binary := seen.binary + 1 } }
    else
      { st with
        files := st.files ++ [relPath],
        stats := { seen with files_included := seen.files_included + 1 } }

mutual

/-- One `os.walk` iteration: count the directory, count the pruned
subdirectories, process the files, then descend into the kept
subdirectories in order.  After the `max_files` early `return` the
`stopped` flag makes every further step a no-op, which yields the same
final state as the source's immediate `return`. -/
def walkDir (config : DiscoveryConfig) (rootParts relComps : List String) :
    FSDir → WalkState → WalkState
  | .mk subdirs files, st =>
    if st.stopped then st
    else
      let st1 := { st with stats := { st.stats with
          dirs_visited := st.stats.dirs_visited + 1 } }
      let pruned := subdirs.names.countP (fun name =>
        should_ignore_directory name (joinPath (relComps ++ [name])) config)
      let st2 := { st1 with stats := { st1.stats with
          ignored_dir_pruned := st1.stats.ignored_dir_pruned + pruned } }
      let st3 := files.foldl (processFile config rootParts relComps) st2
      walkSubdirs config rootParts relComps subdirs st3

/-- Descend into the non-pruned subdirectories in order. -/
def walkSubdirs (config : DiscoveryConfig) (rootParts relComps : List String) :
    FSDirChildren → WalkState → WalkState
  | .nil, st => st
  | .cons name sub rest, st =>
    let st1 :=
      if should_ignore_directory name (joinPath (relComps ++ [name])) config
      then st
      else walkDir config rootParts (relComps ++ [name]) sub st
    walkSubdirs config rootParts relComps rest st1

end

mutual

/-- Look up a subdirectory by path components. -/
def fsLookupDir : FSDir → List String → Option FSDir
  | d, [] => some d
  | .mk subs _, c :: rest => fsLookupDirIn subs c rest

def fsLookupDirIn : FSDirChildren → String → List String → Option FSDir
  | .nil, _, _ => none
  | .cons name d rest, c, comps =>
    if name = c then fsLookupDir d comps else fsLookupDirIn rest c comps

end

mutual

/-- Look up a file by path components (`Path.is_file`). -/
def fsLookupFile : FSDir → List String → Option FSFile
  | _, [] => none
  | .mk _ files, [f] => files.find? (fun x => x.name = f)
  | .mk subs _, c :: rest => fsLookupFileIn subs c rest

def fsLookupFileIn : FSDirChildren → String → List String → Option FSFile
  | .nil, _, _ => none
  | .cons name d rest, c, comps =>
    if name = c then fsLookupFile d comps else fsLookupFileIn rest c comps

end

/-- `str.split('/')` (structural; a path has no empty final burst only
when it ends in `/`, which configured roots fed here never do after
`rstrip`). -/
def splitPathAux (cur : List Char) : List Char → List String
  | [] => [⟨cur.reverse⟩]
  | c :: rest =>
    if c = '/' then ⟨cur.reverse⟩ :: splitPathAux [] rest
    else splitPathAux (c :: cur) rest

/-- Split a configured root into path components. -/
def splitPath (s : String) : List String := splitPathAux [] s.data

/-- `root.rstrip('/')`. -/
def rstripSlash (s : String) : String :=
  ⟨(s.data.reverse.dropWhile (fun c => c = '/')).reverse⟩

/-- `discover_files(repo_root, config)`.  The filesystem is the
directory tree `fs` rooted at the repository root; `rootParts` are the
path components of the repository root itself (they reach
`is_test_file` through `file_path.parts`).  Returned paths are
repo-root-relative (the source returns them with the constant
`repo_root` prefix attached). -/
def discover_files (config : DiscoveryConfig) (rootParts : List String)
    (fs : FSDir) : List String × DiscoveryStats :=
  let st0 : WalkState :=
    config.include_roots.foldl
      (fun st root =>
        if !(root.data.getLast? = some '/') then
          match fsLookupFile fs (splitPath root) with
          | some _ =>
            { st with
              files := st.files ++ [root],
              stats := { st.stats with
                         files_included := st.stats.files_included + 1,
                         files_seen := st.stats.files_seen + 1 } }
          | none => st
        else st)
      {}
  let include_dirs :=
    (config.include_roots.filter (fun r => r.data.getLast? = some '/')).map
      rstripSlash
  let final :=
    include_dirs.foldl
      (fun st rootDir =>
        match fsLookupDir fs (splitPath rootDir) with
        | some d => walkDir config rootParts (splitPath rootDir) d st
        | none => st)
      st0
  (final.files, final.stats)

/-! ## Spec-side definitions (written from the spec's words, for
comparison with the embedded code) -/

/-- All raw scores of a result set are equal (the spec's "all raw scores
in the scope are equal" case). -/
def allRawEqual (chunks : List ChunkRow) : Bool :=
  match chunks with
  | [] => true
  | c :: rest => rest.all (fun x => x.rawScore = c.rawScore)

/-- The selection rule `classify` actually implements, written out on
the three per-intent distinct-match counts (in the iteration order
standards_policy, implementation_debug, process): the strictly greatest
count wins, a tie at the top goes to the earliest intent in that order,
and a query with no matches at all is `general`. -/
def amendedSelect (a b c : Nat) : QueryIntent :=
  if a = 0 ∧ b = 0 ∧ c = 0 then .general
  else if b ≤ a ∧ c ≤ a then .standards_policy
  else if c ≤ b then .implementation_debug
  else .process

/-- A sample retrieved chunk used in concrete witnesses. -/
def sampleChunkA : ScoredChunk :=
  { chunk := { source_type := some "code", path := some "p" }
    raw_score := 0, normalized_score := 0, weighted_score := 0
    scope_type := .pr_overlay }

/-- Two distinct retrieved chunks whose row dicts lack an `id` key. -/
def idlessChunkA : ScoredChunk :=
  { chunk := { source_type := some "code", path := some "p1" }
    raw_score := 0, normalized_score := 0, weighted_score := 0
    scope_type := .repo_docs }

def idlessChunkB : ScoredChunk :=
  { chunk := { source_type := some "code", path := some "p2" }
    raw_score := 0, normalized_score := 0, weighted_score := 0
    scope_type := .repo_docs }

/-- A repository tree holding one supported, small, text file inside
`apps/node_modules/`. -/
def nodeModulesFS : FSDir :=
  .mk (.cons "apps"
        (.mk (.cons "node_modules" (.mk .nil [⟨"x.js", [97, 98, 99]⟩]) .nil)
          [])
        .nil)
      []

/-- A repository tree whose only file is a top-level `README.md` whose
first bytes contain a null byte. -/
def binaryReadmeFS : FSDir := .mk .nil [⟨"README.md", [77, 0, 78]⟩]

end FactGap

namespace FactGap

/-! # Theorems -/

/-! ## C1 — per-scope min-max score normalization -/

theorem foldl_min_le_init (as : List ℚ) : ∀ a : ℚ, as.foldl min a ≤ a := by
  induction as with
  | nil => intro a; exact le_refl a
  | cons b bs ih =>
    intro a
    simp only [List.foldl_cons]
    exact le_trans (ih (min a b)) (min_le_left a b)

theorem foldl_min_le_of_mem (as : List ℚ) :
    ∀ (a x : ℚ), x ∈ as → as.foldl min a ≤ x := by
  induction as with
  | nil => intro a x hx; simp at hx
  | cons b bs ih =>
    intro a x hx
    simp only [List.foldl_cons]
    rcases List.mem_cons.mp hx with hx | hx
    · subst hx
      exact le_trans (foldl_min_le_init bs (min a x)) (min_le_right a x)
    · exact ih (min a b) x hx

theorem listMin_le_mem {l : List ℚ} {x : ℚ} (hx : x ∈ l) : listMin l ≤ x := by
  match l, hx with
  | a :: as, hx =>
    show as.foldl min a ≤ x
    rcases List.mem_cons.mp hx with h | h
    · subst h; exact foldl_min_le_init as x
    · exact foldl_min_le_of_mem as a x h

theorem init_le_foldl_max (as : List ℚ) : ∀ a : ℚ, a ≤ as.foldl max a := by
  induction as with
  | nil => intro a; exact le_refl a
  | cons b bs ih =>
    intro a
    simp only [List.foldl_cons]
    exact le_trans (le_max_left a b) (ih (max a b))

theorem mem_le_foldl_max (as : List ℚ) :
    ∀ (a x : ℚ), x ∈ as → x ≤ as.foldl max a := by
  induction as with
  | nil => intro a x hx; simp at hx
  | cons b bs ih =>
    intro a x hx
    simp only [List.foldl_cons]
    rcases List.mem_cons.mp hx with hx | hx
    · subst hx
      exact le_trans (le_max_right a x) (init_le_foldl_max bs (max a x))
    · exact ih (max a b) x hx

theorem le_listMax_mem {l : List ℚ} {x : ℚ} (hx : x ∈ l) : x ≤ listMax l := by
  match l, hx with
  | a :: as, hx =>
    show x ≤ as.foldl max a
    rcases List.mem_cons.mp hx with h | h
    · subst h; exact init_le_foldl_max as x
    · exact mem_le_foldl_max as a x h

theorem foldl_min_mem (as : List ℚ) :
    ∀ a : ℚ, as.foldl min a = a ∨ as.foldl min a ∈ as := by
  induction as with
  | nil => intro a; exact Or.inl rfl
  | cons b bs ih =>
    intro a
    simp only [List.foldl_cons]
    rcases ih (min a b) with h | h
    · rcases min_cases a b with ⟨he, -⟩ | ⟨he, -⟩
      · exact Or.inl (by rw [h, he])
      · exact Or.inr (by rw [h, he]; exact List.mem_cons_self _ _)
    · exact Or.inr (List.mem_cons_of_mem _ h)

theorem foldl_max_mem (as : List ℚ) :
    ∀ a : ℚ, as.foldl max a = a ∨ as.foldl max a ∈ as := by
  induction as with
  | nil => intro a; exact Or.inl rfl
  | cons b bs ih =>
    intro a
    simp only [List.foldl_cons]
    rcases ih (max a b) with h | h
    · rcases max_cases a b with ⟨he, -⟩ | ⟨he, -⟩
      · exact Or.inl (by rw [h, he])
      · exact Or.inr (by rw [h, he]; exact List.mem_cons_self _ _)
    · exact Or.inr (List.mem_cons_of_mem _ h)

theorem listMin_mem {l : List ℚ} (hl : l ≠ []) : listMin l ∈ l := by
  match l with
  | a :: as =>
    show as.foldl min a ∈ a :: as
    rcases foldl_min_mem as a with h | h
    · rw [h]; exact List.mem_cons_self _ _
    · exact List.mem_cons_of_mem _ h

theorem listMax_mem {l : List ℚ} (hl : l ≠ []) : listMax l ∈ l := by
  match l with
  | a :: as =>
    show as.foldl max a ∈ a :: as
    rcases foldl_max_mem as a with h | h
    · rw [h]; exact List.mem_cons_self _ _
    · exact List.mem_cons_of_mem _ h

theorem allRawEqual_iff (chunks : List ChunkRow) :
    allRawEqual chunks = true ↔
      ∀ c1 ∈ chunks, ∀ c2 ∈ chunks, c1.rawScore = c2.rawScore := by
  cases chunks with
  | nil => simp [allRawEqual]
  | cons c rest =>
    simp only [allRawEqual, List.all_eq_true, decide_eq_true_eq]
    constructor
    · intro h c1 h1 c2 h2
      rcases List.mem_cons.mp h1 with h1 | h1 <;>
        rcases List.mem_cons.mp h2 with h2 | h2
      · rw [h1, h2]
      · rw [h1, h c2 h2]
      · rw [h2, h c1 h1]
      · rw [h c1 h1, h c2 h2]
    · intro h x hx
      exact h x (List.mem_cons_of_mem _ hx) c (List.mem_cons_self _ _)

theorem range_pos_iff_not_allRawEqual (c : ChunkRow) (rest : List ChunkRow) :
    (0 < listMax ((c :: rest).map ChunkRow.rawScore)
        - listMin ((c :: rest).map ChunkRow.rawScore)) ↔
      allRawEqual (c :: rest) = false := by
  set l := (c :: rest).map ChunkRow.rawScore with hl
  have hne : l ≠ [] := by simp [hl]
  constructor
  · intro hpos
    by_contra hall
    rw [Bool.not_eq_false] at hall
    rw [allRawEqual_iff] at hall
    have h1 := listMin_mem hne
    have h2 := listMax_mem hne
    rw [hl] at h1 h2
    rcases List.mem_map.mp h1 with ⟨a, ha, hae⟩
    rcases List.mem_map.mp h2 with ⟨b, hb, hbe⟩
    have hab := hall a ha b hb
    rw [← hae, ← hbe, hab] at hpos
    simp at hpos
  · intro hall
    have hne2 : ¬ (∀ c1 ∈ (c :: rest), ∀ c2 ∈ (c :: rest),
        c1.rawScore = c2.rawScore) := by
      intro hc
      rw [← allRawEqual_iff] at hc
      rw [hall] at hc
      exact Bool.false_ne_true hc
    push_neg at hne2
    rcases hne2 with ⟨c1, h1, c2, h2, hne12⟩
    have ha : listMin l ≤ c1.rawScore :=
      listMin_le_mem (by rw [hl]; exact List.mem_map_of_mem _ h1)
    have hb : c2.rawScore ≤ listMax l :=
      le_listMax_mem (by rw [hl]; exact List.mem_map_of_mem _ h2)
    have ha2 : listMin l ≤ c2.rawScore :=
      listMin_le_mem (by rw [hl]; exact List.mem_map_of_mem _ h2)
    have hb1 : c1.rawScore ≤ listMax l :=
      le_listMax_mem (by rw [hl]; exact List.mem_map_of_mem _ h1)
    rcases lt_or_gt_of_ne hne12 with h | h
    · linarith
    · linarith

/-- C1. `normalize_scores` min-max normalizes each chunk's raw score
(`chunk.get("score", 0.0)`) within the given scope's result set only:
an empty result set yields `[]`, the all-equal case yields 1.0 for
every chunk, otherwise each chunk gets `(raw - min)/(max - min)`; in
particular raw scores `[0.9, 0.5, 0.1]` normalize to `[1.0, 0.5, 0.0]`
and `[0.7, 0.7, 0.7]` to `[1.0, 1.0, 1.0]`. -/
theorem normalize_scores_minmax (chunks : List ChunkRow) (st : ScopeType) :
    normalize_scores [] st = []
    ∧ (allRawEqual chunks = true ↔
        ∀ c1 ∈ chunks, ∀ c2 ∈ chunks, c1.rawScore = c2.rawScore)
    ∧ normalize_scores chunks st = chunks.map (fun ch =>
        { chunk := ch
          raw_score := ch.rawScore
          normalized_score :=
            if allRawEqual chunks then 1
            else (ch.rawScore - listMin (chunks.map ChunkRow.rawScore)) /
              (listMax (chunks.map ChunkRow.rawScore)
                - listMin (chunks.map ChunkRow.rawScore))
          weighted_score :=
            if allRawEqual chunks then 1
            else (ch.rawScore - listMin (chunks.map ChunkRow.rawScore)) /
              (listMax (chunks.map ChunkRow.rawScore)
                - listMin (chunks.map ChunkRow.rawScore))
          scope_type := st })
    ∧ (normalize_scores
        [{ score := some (9/10) }, { score := some (1/2) },
         { score := some (1/10) }] ScopeType.repo_docs).map
          ScoredChunk.normalized_score = [1, 1/2, 0]
    ∧ (normalize_scores
        [{ score := some (7/10) }, { score := some (7/10) },
         { score := some (7/10) }] ScopeType.repo_docs).map
          ScoredChunk.normalized_score = [1, 1, 1] := by
  refine ⟨rfl, allRawEqual_iff chunks, ?_,
    by norm_num [normalize_scores, listMin, listMax, ChunkRow.rawScore,
      ScoredChunk.normalized_score, min_def, max_def],
    by norm_num [normalize_scores, listMin, listMax, ChunkRow.rawScore,
      ScoredChunk.normalized_score, min_def, max_def]⟩
  cases chunks with
  | nil => rfl
  | cons c rest =>
    have hiff := range_pos_iff_not_allRawEqual c rest
    simp only [normalize_scores]
    apply List.map_congr_left
    intro ch _
    by_cases hall : allRawEqual (c :: rest) = true
    · have hnotpos : ¬ (0 < listMax ((c :: rest).map ChunkRow.rawScore)
          - listMin ((c :: rest).map ChunkRow.rawScore)) := by
        intro hpos
        rw [hiff.mp hpos] at hall
        exact Bool.false_ne_true hall
      rw [if_neg hnotpos, if_pos hall]
    · have hfalse : allRawEqual (c :: rest) = false := by
        simpa using hall
      have hpos := hiff.mpr hfalse
      rw [if_pos hpos, if_neg hall]

/-! ## C2 — intent selection and tie-breaking -/

theorem selectBest_intent (m1 m2 m3 : List String) :
    (selectBest [(.standards_policy, m1), (.implementation_debug, m2),
      (.process, m3)]).1 = amendedSelect m1.length m2.length m3.length := by
  simp only [selectBest, List.foldl, amendedSelect]
  split_ifs <;> first | rfl | omega | simp_all <;> omega

/-- C2 (corrected claim's counterexample): on `"policy deploy"` the
standards_policy and process intents tie for the strictly greatest
distinct-match count (1 each, implementation_debug has 0), yet
`classify` returns standards_policy, not general. -/
theorem classify_tie_counterexample :
    (matchedKeywords standardsPolicyKeywords "policy deploy").length =
      (matchedKeywords processKeywords "policy deploy").length
    ∧ (matchedKeywords implementationDebugKeywords "policy deploy").length <
        (matchedKeywords standardsPolicyKeywords "policy deploy").length
    ∧ (classify "policy deploy").intent = QueryIntent.standards_policy
    ∧ QueryIntent.standards_policy ≠ QueryIntent.general := by
  refine ⟨by decide, by decide, by decide, by decide⟩

/-- C2 (amended). `classify` selects the intent with the strictly
greatest distinct matched-keyword count; a tie at the top goes to the
first of (standards_policy, implementation_debug, process) attaining
it — not to general — while a query with no matches at all yields
general with confidence 0 and an empty matched-keyword set, as in
`classify("Hello world")`. -/
theorem classify_selection (q : String) :
    (classify q).intent =
      amendedSelect (matchedKeywords standardsPolicyKeywords q).length
        (matchedKeywords implementationDebugKeywords q).length
        (matchedKeywords processKeywords q).length
    ∧ ((matchedKeywords standardsPolicyKeywords q).length = 0 ∧
        (matchedKeywords implementationDebugKeywords q).length = 0 ∧
        (matchedKeywords processKeywords q).length = 0 →
        (classify q).confidence = 0 ∧ (classify q).matched_keywords = [])
    ∧ classify "Hello world" =
        { intent := .general, confidence := 0, matched_keywords := [],
          scope_weights :=
            [("code", 1), ("diff", 1), ("repo_doc", 1), ("notion", 1)] } := by
  refine ⟨?_, ?_, by decide⟩
  · have h := selectBest_intent (matchedKeywords standardsPolicyKeywords q)
      (matchedKeywords implementationDebugKeywords q)
      (matchedKeywords processKeywords q)
    simpa [classify, intentMatches, INTENT_KEYWORDS] using h
  · intro ⟨h1, h2, h3⟩
    have e1 := List.length_eq_zero.mp h1
    have e2 := List.length_eq_zero.mp h2
    have e3 := List.length_eq_zero.mp h3
    simp [classify, selectBest, intentMatches, INTENT_KEYWORDS, e1, e2, e3]

/-- Witness for the amended C2 theorem's zero-match hypothesis, at the
spec's own example query. -/
theorem classify_selection_witness :
    (classify "Hello world").confidence = 0 ∧
    (classify "Hello world").matched_keywords = [] :=
  (classify_selection "Hello world").2.1 (by decide)

/-! ## C3 — diversity post-filter -/

theorem diversitySelect_sublist (k : Nat) :
    ∀ (l : List ScoredChunk) (counts : String → Nat) (n : Nat),
      (diversitySelect k l counts n).Sublist l := by
  intro l
  induction l with
  | nil => intro counts n; simp [diversitySelect]
  | cons sc rest ih =>
    intro counts n
    simp only [diversitySelect]
    split_ifs with h1 h2
    · exact List.nil_sublist _
    · exact List.Sublist.cons _ (ih _ _)
    · exact List.Sublist.cons₂ _ (ih _ _)

theorem diversitySelect_length (k : Nat) :
    ∀ (l : List ScoredChunk) (counts : String → Nat) (n : Nat),
      (diversitySelect k l counts n).length ≤ k - n := by
  intro l
  induction l with
  | nil => intro counts n; simp [diversitySelect]
  | cons sc rest ih =>
    intro counts n
    simp only [diversitySelect]
    split_ifs with h1 h2
    · simp
    · exact ih _ _
    · have := ih (fun key =>
        if key = sc.docKey then counts key + 1 else counts key) (n + 1)
      simp only [List.length_cons]
      omega

theorem diversitySelect_perDoc (k : Nat) (d : String) :
    ∀ (l : List ScoredChunk) (counts : String → Nat) (n : Nat),
      ((diversitySelect k l counts n).filter
        (fun sc => sc.docKey = d)).length ≤ MAX_CHUNKS_PER_DOC - counts d := by
  intro l
  induction l with
  | nil => intro counts n; simp [diversitySelect]
  | cons sc rest ih =>
    intro counts n
    simp only [diversitySelect]
    split_ifs with h1 h2
    · simp
    · exact ih _ _
    · have hrec := ih (fun key =>
        if key = sc.docKey then counts key + 1 else counts key) (n + 1)
      by_cases hd : sc.docKey = d
      · rw [if_pos hd.symm] at hrec
        rw [List.filter_cons, if_pos (by simp [hd]), List.length_cons]
        rw [hd] at h2
        omega
      · rw [if_neg (fun h => hd h.symm)] at hrec
        rw [List.filter_cons, if_neg (by simp [hd])]
        exact hrec

theorem diversitySelect_all_same_doc (k : Nat) (d : String) :
    ∀ (l : List ScoredChunk) (counts : String → Nat) (n : Nat),
      (∀ sc ∈ l, sc.docKey = d) →
      diversitySelect k l counts n =
        l.take (min (k - n) (MAX_CHUNKS_PER_DOC - counts d)) := by
  intro l
  induction l with
  | nil => intro counts n _; simp [diversitySelect]
  | cons sc rest ih =>
    intro counts n hall
    have hd : sc.docKey = d := hall sc (List.mem_cons_self _ _)
    have hrest : ∀ x ∈ rest, x.docKey = d :=
      fun x hx => hall x (List.mem_cons_of_mem _ hx)
    simp only [diversitySelect]
    split_ifs with h1 h2
    · have hz : min (k - n) (MAX_CHUNKS_PER_DOC - counts d) = 0 := by omega
      rw [hz, List.take_zero]
    · rw [hd] at h2
      have hz : min (k - n) (MAX_CHUNKS_PER_DOC - counts d) = 0 := by omega
      rw [ih counts n hrest, hz, List.take_zero, List.take_zero]
    · rw [hd] at h2
      have hrec := ih (fun key =>
        if key = sc.docKey then counts key + 1 else counts key) (n + 1) hrest
      beta_reduce at hrec
      rw [if_pos hd.symm] at hrec
      rw [hrec]
      have hm : min (k - n) (MAX_CHUNKS_PER_DOC - counts d) =
          min (k - (n + 1)) (MAX_CHUNKS_PER_DOC - (counts d + 1)) + 1 := by
        omega
      rw [hm]
      rfl

theorem rerank_always_applies_diversity (er ed : Bool)
    (co ll : Option (Option (List ScoredChunk)))
    (cands : List ScoredChunk) (k : Nat) :
    ∃ l m, rerank er ed co ll cands k = apply_diversity ed l k m := by
  unfold rerank
  split_ifs with h
  · exact ⟨_, _, rfl⟩
  · rcases co with _ | co2
    · rcases ll with _ | ll2
      · exact ⟨_, _, rfl⟩
      · rcases ll2 with _ | r
        · exact ⟨_, _, rfl⟩
        · exact ⟨_, _, rfl⟩
    · rcases co2 with _ | r
      · rcases ll with _ | ll2
        · exact ⟨_, _, rfl⟩
        · rcases ll2 with _ | r
          · exact ⟨_, _, rfl⟩
          · exact ⟨_, _, rfl⟩
      · exact ⟨_, _, rfl⟩

/-- C3. Every `rerank` path (cohere success, llm success, and the
passthrough fallbacks) ends in `_apply_diversity`; with diversity
enabled the filter admits greedily in rank order (its output is an
order-preserving sublist), stops at `top_k`, admits at most
`MAX_CHUNKS_PER_DOC` (2) chunks per `doc_key`, and when every candidate
shares one `doc_key` it returns exactly the `min top_k 2`
highest-ranked ones. -/
theorem rerank_diversity_filter (er ed : Bool)
    (co ll : Option (Option (List ScoredChunk)))
    (cands chunks : List ScoredChunk) (top_k : Nat) (method : String)
    (d : String) :
    (∃ l m, rerank er ed co ll cands top_k = apply_diversity ed l top_k m)
    ∧ (apply_diversity true chunks top_k method).chunks
        = diversitySelect top_k chunks (fun _ => 0) 0
    ∧ (diversitySelect top_k chunks (fun _ => 0) 0).Sublist chunks
    ∧ (diversitySelect top_k chunks (fun _ => 0) 0).length ≤ top_k
    ∧ ((diversitySelect top_k chunks (fun _ => 0) 0).filter
        (fun sc => sc.docKey = d)).length ≤ MAX_CHUNKS_PER_DOC
    ∧ ((∀ sc ∈ chunks, sc.docKey = d) →
        diversitySelect top_k chunks (fun _ => 0) 0
          = chunks.take (min top_k MAX_CHUNKS_PER_DOC)) := by
  refine ⟨rerank_always_applies_diversity er ed co ll cands top_k,
    by simp [apply_diversity], diversitySelect_sublist top_k chunks _ 0,
    ?_, ?_, ?_⟩
  · have := diversitySelect_length top_k chunks (fun _ => 0) 0
    omega
  · have := diversitySelect_perDoc top_k d chunks (fun _ => 0) 0
    omega
  · intro hall
    have := diversitySelect_all_same_doc top_k d chunks (fun _ => 0) 0 hall
    simpa using this

/-- Witness for the amended same-doc hypothesis of the C3 theorem:
five identically-keyed candidates, `top_k = 8`, yield exactly the two
highest-ranked. -/
theorem rerank_diversity_filter_witness :
    (∀ sc ∈ [sampleChunkA, sampleChunkA, sampleChunkA, sampleChunkA,
        sampleChunkA], sc.docKey = "p")
    ∧ diversitySelect 8 [sampleChunkA, sampleChunkA, sampleChunkA,
        sampleChunkA, sampleChunkA] (fun _ => 0) 0
      = [sampleChunkA, sampleChunkA, sampleChunkA, sampleChunkA,
          sampleChunkA].take (min 8 MAX_CHUNKS_PER_DOC) :=
  ⟨by decide,
   (rerank_diversity_filter true true none none [] _ 8 "passthrough"
      "p").2.2.2.2.2 (by decide)⟩

/-! ## C4 — batch embedding order and call count -/

theorem toBatches_nil {α} (b : Nat) : toBatches b ([] : List α) = [] := by
  simp [toBatches]

theorem toBatches_flatten {α} (b : Nat) (hb : 0 < b) (l : List α) :
    (toBatches b l).flatten = l := by
  have main : ∀ n (l : List α), l.length ≤ n → (toBatches b l).flatten = l := by
    intro n
    induction n with
    | zero =>
      intro l hl
      have hnil : l = [] := List.length_eq_zero.mp (Nat.le_zero.mp hl)
      rw [hnil, toBatches_nil]
      rfl
    | succ n ih =>
      intro l hl
      cases l with
      | nil => rw [toBatches_nil]; rfl
      | cons x xs =>
        rw [toBatches, if_neg (by omega), List.flatten_cons,
          ih ((x :: xs).drop b) (by simp [List.length_drop] at hl ⊢; omega)]
        exact List.take_append_drop b (x :: xs)
  exact main l.length l (le_refl _)

theorem toBatches_length {α} (b : Nat) (hb : 0 < b) (l : List α) :
    (toBatches b l).length = (l.length + b - 1) / b := by
  have key : ∀ len, 1 ≤ len → (len + b - 1) / b = 1 + (len - b + b - 1) / b := by
    intro len hlen
    rcases Nat.lt_or_ge len b with h | h
    · have h0 : len - b = 0 := by omega
      have e1 : (0 + b - 1) / b = 0 := Nat.div_eq_of_lt (by omega)
      have e2 : (len + b - 1) / b = 1 := by
        apply Nat.div_eq_of_lt_le (by omega) (by omega)
      rw [h0, e1, e2]
    · have e : len - b + b - 1 = len - 1 := by omega
      have e2 : len + b - 1 = (len - 1) + b := by omega
      rw [e, e2, Nat.add_div_right _ hb]
      omega
  have main : ∀ n (l : List α), l.length ≤ n →
      (toBatches b l).length = (l.length + b - 1) / b := by
    intro n
    induction n with
    | zero =>
      intro l hl
      have hnil : l = [] := List.length_eq_zero.mp (Nat.le_zero.mp hl)
      rw [hnil, toBatches_nil]
      show 0 = (0 + b - 1) / b
      rw [Nat.div_eq_of_lt (by omega)]
    | succ n ih =>
      intro l hl
      cases l with
      | nil =>
        rw [toBatches_nil]
        show 0 = (0 + b - 1) / b
        rw [Nat.div_eq_of_lt (by omega)]
      | cons x xs =>
        rw [toBatches, if_neg (by omega)]
        rw [List.length_cons,
          ih ((x :: xs).drop b) (by simp [List.length_drop] at hl ⊢; omega)]
        rw [List.length_drop]
        rw [key (x :: xs).length (by simp)]
        omega
  exact main l.length l (le_refl _)

theorem mem_enumFrom_fst_le {α} :
    ∀ (l : List α) (n : Nat) (y : Nat × α), y ∈ List.enumFrom n l → n ≤ y.1 := by
  intro l
  induction l with
  | nil => intro n y hy; simp at hy
  | cons x xs ih =>
    intro n y hy
    rcases List.mem_cons.mp hy with hy | hy
    · rw [hy]
    · have := ih (n + 1) y hy
      omega

theorem pairwise_fst_lt_enumFrom {α} :
    ∀ (l : List α) (n : Nat),
      List.Pairwise (fun a b : Nat × α => a.1 < b.1) (List.enumFrom n l) := by
  intro l
  induction l with
  | nil => intro n; constructor
  | cons x xs ih =>
    intro n
    refine List.Pairwise.cons ?_ (ih (n + 1))
    intro y hy
    have := mem_enumFrom_fst_le xs (n + 1) y hy
    omega

theorem sortByIndex_eq_of_perm_enum (data : List (Nat × List ℚ))
    (base : List (List ℚ)) (hperm : data.Perm base.enum) :
    sortByIndex data = base.enum := by
  have hperm2 : (sortByIndex data).Perm base.enum :=
    (List.mergeSort_perm data _).trans hperm
  have hle : List.Pairwise (fun a b : Nat × List ℚ => a.1 ≤ b.1)
      (sortByIndex data) := by
    have := @List.sorted_mergeSort (Nat × List ℚ)
      (fun x y => decide (x.1 ≤ y.1))
      (fun a b c hab hbc => by
        simp only [decide_eq_true_eq] at hab hbc ⊢; omega)
      (fun a b => by
        simp only [Bool.or_eq_true, decide_eq_true_eq]; omega)
      data
    exact this.imp (fun h => by simpa using h)
  have hnodup : (List.map Prod.fst (sortByIndex data)).Nodup := by
    have h1 : (List.map Prod.fst (sortByIndex data)).Perm
        (List.map Prod.fst base.enum) := hperm2.map Prod.fst
    rw [List.enum_map_fst] at h1
    exact (h1.nodup_iff).mpr (List.nodup_range _)
  have hne : List.Pairwise (fun a b : Nat × List ℚ => a.1 ≠ b.1)
      (sortByIndex data) := List.pairwise_map.mp hnodup
  have hlt : List.Pairwise (fun a b : Nat × List ℚ => a.1 < b.1)
      (sortByIndex data) :=
    (hle.and hne).imp (fun h => by omega)
  have hlt2 : List.Pairwise (fun a b : Nat × List ℚ => a.1 < b.1) base.enum := by
    rw [List.enum_eq_enumFrom]
    exact pairwise_fst_lt_enumFrom base 0
  haveI : IsAntisymm (Nat × List ℚ) (fun a b => a.1 < b.1) :=
    ⟨fun a b h1 h2 => absurd h2 (by omega)⟩
  exact List.eq_of_perm_of_sorted hperm2 hlt hlt2

/-- C4. With a positive batch size and a provider that answers each
batch with the (index, embedding) pairs of that batch in an arbitrary
order, `embed_batch` returns exactly one vector per input text, in
input order, and issues `⌈n / batch_size⌉` provider calls; in
particular three texts with batch size 2 mean 2 calls and 3 vectors. -/
theorem embed_batch_eq_map (provider : List String → List (Nat × List ℚ))
    (E : String → List ℚ) (b : Nat) (texts : List String)
    (hb : 0 < b)
    (hprov : ∀ batch, (provider batch).Perm (batch.map E).enum) :
    embed_batch provider b texts = texts.map E := by
  unfold embed_batch
  have hbatch : ∀ batch,
      (sortByIndex (provider batch)).map Prod.snd = batch.map E := by
    intro batch
    rw [sortByIndex_eq_of_perm_enum (provider batch) (batch.map E)
      (hprov batch)]
    exact List.enum_map_snd _
  rw [List.map_congr_left (fun batch _ => hbatch batch)]
  have : List.map (fun batch => batch.map E) (toBatches b texts)
      = List.map (List.map E) (toBatches b texts) := rfl
  rw [this, ← List.map_flatten, toBatches_flatten b hb]

theorem embed_batch_spec (provider : List String → List (Nat × List ℚ))
    (E : String → List ℚ) (b : Nat) (texts : List String)
    (hb : 0 < b)
    (hprov : ∀ batch, (provider batch).Perm (batch.map E).enum) :
    embed_batch provider b texts = texts.map E
    ∧ (embed_batch provider b texts).length = texts.length
    ∧ embed_batch_calls b texts = (texts.length + b - 1) / b
    ∧ embed_batch_calls 2 ["a", "b", "c"] = 2 := by
  have hmain : embed_batch provider b texts = texts.map E :=
    embed_batch_eq_map provider E b texts hb hprov
  refine ⟨hmain, by rw [hmain, List.length_map], ?_, ?_⟩
  · unfold embed_batch_calls
    exact toBatches_length b hb texts
  · unfold embed_batch_calls
    rw [toBatches_length 2 (by omega)]
    rfl

/-- Witness for the C4 theorem: a provider that reverses each batch's
response order still yields the three vectors in input order via two
calls. -/
theorem embed_batch_spec_witness :
    embed_batch (fun batch => ((batch.map (fun t => [(t.length : ℚ)])).enum).reverse)
        2 ["a", "b", "c"]
      = ["a", "b", "c"].map (fun t => [(t.length : ℚ)])
    ∧ embed_batch_calls 2 ["a", "b", "c"] = 2 :=
  have h := embed_batch_spec
    (fun batch => ((batch.map (fun t => [(t.length : ℚ)])).enum).reverse)
    (fun t => [(t.length : ℚ)]) 2 ["a", "b", "c"]
    (by omega) (fun batch => List.reverse_perm _)
  ⟨h.1, h.2.2.2⟩

/-! ## C5 — embed_with_skip: skip positions, partition, full length -/

theorem splitBySkip_spec (ex : List String) :
    ∀ (pairs : List (String × String)) (i0 : Nat),
      (splitBySkip ex pairs i0).1 =
        (pairs.filter (fun p => !decide (p.2 ∈ ex))).map Prod.fst
      ∧ (splitBySkip ex pairs i0).2.1 =
        ((List.enumFrom i0 pairs).filter
          (fun q => !decide (q.2.2 ∈ ex))).map Prod.fst
      ∧ (splitBySkip ex pairs i0).2.2 =
        ((List.enumFrom i0 pairs).filter
          (fun q => decide (q.2.2 ∈ ex))).map Prod.fst := by
  intro pairs
  induction pairs with
  | nil => intro i0; exact ⟨rfl, rfl, rfl⟩
  | cons p rest ih =>
    intro i0
    obtain ⟨t, h⟩ := p
    have ihs := ih (i0 + 1)
    by_cases hmem : h ∈ ex
    · simp only [splitBySkip, if_pos hmem, List.enumFrom_cons,
        List.filter_cons, decide_eq_true hmem, Bool.not_true, if_neg,
        Bool.false_eq_true, not_false_eq_true, if_pos, List.map_cons]
      exact ⟨ihs.1, ihs.2.1, by rw [ihs.2.2]⟩
    · simp only [splitBySkip, if_neg hmem, List.enumFrom_cons,
        List.filter_cons, decide_eq_false hmem, Bool.not_false,
        if_pos, Bool.true_eq_false, not_true_eq_false, if_neg,
        List.map_cons]
      exact ⟨by rw [ihs.1], by rw [ihs.2.1], ihs.2.2⟩

theorem set_at_boundary {α} :
    ∀ (A : List α) (x : α) (B : List α) (v : α),
      (A ++ x :: B).set A.length v = A ++ v :: B := by
  intro A
  induction A with
  | nil => intro x B v; rfl
  | cons a as ih =>
    intro x B v
    simp only [List.cons_append, List.length_cons, List.set_cons_succ]
    rw [ih]

theorem fold_set_replicate (E : String → List ℚ) (ex : List String) :
    ∀ (pairs : List (String × String)) (prefixAcc suffixAcc : List (Option (List ℚ))),
      (((splitBySkip ex pairs prefixAcc.length).2.1).zip
          (((splitBySkip ex pairs prefixAcc.length).1).map E)).foldl
        (fun a p => a.set p.1 (some p.2))
        (prefixAcc ++ List.replicate pairs.length none ++ suffixAcc)
      = prefixAcc ++ pairs.map
          (fun p => if p.2 ∈ ex then none else some (E p.1)) ++ suffixAcc := by
  intro pairs
  induction pairs with
  | nil => intro prefixAcc suffixAcc; rfl
  | cons p rest ih =>
    intro prefixAcc suffixAcc
    obtain ⟨t, h⟩ := p
    rw [List.length_cons, List.replicate_succ, List.append_assoc,
      List.cons_append]
    by_cases hmem : h ∈ ex
    · simp only [splitBySkip, if_pos hmem]
      have hre :
          prefixAcc ++ none :: (List.replicate rest.length none ++ suffixAcc)
            = (prefixAcc ++ [(none : Option (List ℚ))])
                ++ List.replicate rest.length none ++ suffixAcc := by
        simp
      rw [hre]
      rw [show prefixAcc.length + 1
          = (prefixAcc ++ [(none : Option (List ℚ))]).length by simp]
      rw [ih (prefixAcc ++ [(none : Option (List ℚ))]) suffixAcc]
      simp [hmem]
    · simp only [splitBySkip, if_neg hmem, List.map_cons,
        List.zip_cons_cons, List.foldl_cons]
      rw [set_at_boundary prefixAcc none
        (List.replicate rest.length none ++ suffixAcc) (some (E t))]
      have hre :
          prefixAcc ++ some (E t)
              :: (List.replicate rest.length none ++ suffixAcc)
            = (prefixAcc ++ [some (E t)])
                ++ List.replicate rest.length none ++ suffixAcc := by
        simp
      rw [hre]
      rw [show prefixAcc.length + 1
          = (prefixAcc ++ [some (E t)]).length by simp]
      rw [ih (prefixAcc ++ [some (E t)]) suffixAcc]
      simp [hmem]

theorem length_filter_enumFrom_snd (p : String → Bool) :
    ∀ (l : List (String × String)) (n : Nat),
      ((List.enumFrom n l).filter (fun q => p q.2.2)).length
        = (l.filter (fun x => p x.2)).length := by
  intro l
  induction l with
  | nil => intro n; rfl
  | cons x xs ih =>
    intro n
    simp only [List.enumFrom_cons, List.filter_cons]
    by_cases hp : p x.2
    · simp only [hp, if_pos, List.length_cons, ih]
    · simp only [hp, Bool.false_eq_true, if_neg, not_false_eq_true, ih]

/-- C5. For any existence-check result, `embed_with_skip` returns an
embeddings array of exactly the input's length with `none` at exactly
the positions whose content hash the check reports as existing (those
positions form `skipped_indices`) and a newly computed embedding
everywhere else (`new_indices`); the two index lists partition the
input positions, and the embed/skip counters equal the sizes of the
non-existing and existing subsets. -/
theorem embed_with_skip_spec (provider : List String → List (Nat × List ℚ))
    (E : String → List ℚ) (b : Nat)
    (checkExisting : List String → List String)
    (texts hashes : List String)
    (hb : 0 < b)
    (hprov : ∀ batch, (provider batch).Perm (batch.map E).enum)
    (hlen : hashes.length = texts.length) :
    (embed_with_skip provider b checkExisting texts (some hashes)).embeddings
      = (texts.zip hashes).map
          (fun p => if p.2 ∈ checkExisting hashes then none else some (E p.1))
    ∧ (embed_with_skip provider b checkExisting texts
        (some hashes)).embeddings.length = texts.length
    ∧ (embed_with_skip provider b checkExisting texts
        (some hashes)).skipped_indices
      = ((texts.zip hashes).enum.filter
          (fun q => decide (q.2.2 ∈ checkExisting hashes))).map Prod.fst
    ∧ (embed_with_skip provider b checkExisting texts
        (some hashes)).new_indices
      = ((texts.zip hashes).enum.filter
          (fun q => !decide (q.2.2 ∈ checkExisting hashes))).map Prod.fst
    ∧ ((embed_with_skip provider b checkExisting texts
          (some hashes)).skipped_indices ++
        (embed_with_skip provider b checkExisting texts
          (some hashes)).new_indices).Perm (List.range texts.length)
    ∧ (embed_with_skip provider b checkExisting texts (some hashes)).embedded
      = ((texts.zip hashes).filter
          (fun p => !decide (p.2 ∈ checkExisting hashes))).length
    ∧ (embed_with_skip provider b checkExisting texts (some hashes)).skipped
      = ((texts.zip hashes).filter
          (fun p => decide (p.2 ∈ checkExisting hashes))).length := by
  cases texts with
  | nil =>
    have h0 : hashes = [] := List.length_eq_zero.mp (by simpa using hlen)
    subst h0
    refine ⟨rfl, rfl, rfl, rfl, by simp [embed_with_skip], rfl, rfl⟩
  | cons t0 ts =>
    set texts := t0 :: ts with htexts
    set ex := checkExisting hashes with hex
    set pairs := texts.zip hashes with hpairs
    have hplen : pairs.length = texts.length := by
      rw [hpairs, List.length_zip, hlen, htexts]
      simp
    have hsplit := splitBySkip_spec ex pairs 0
    have hemb : ∀ l : List String, embed_batch provider b l = l.map E :=
      fun l => embed_batch_eq_map provider E b l hb hprov
    have hnew : (if (splitBySkip ex pairs 0).1 = [] then []
        else embed_batch provider b (splitBySkip ex pairs 0).1)
          = ((splitBySkip ex pairs 0).1).map E := by
      by_cases hsz : (splitBySkip ex pairs 0).1 = []
      · rw [if_pos hsz, hsz]; rfl
      · rw [if_neg hsz]; exact hemb _
    have hfold := fold_set_replicate E ex pairs [] []
    simp only [List.length_nil, List.nil_append, List.append_nil] at hfold
    have hmain : (embed_with_skip provider b checkExisting texts
        (some hashes)).embeddings
          = pairs.map (fun p => if p.2 ∈ ex then none else some (E p.1)) := by
      show ((splitBySkip ex pairs 0).2.1.zip
          ((if (splitBySkip ex pairs 0).1 = [] then []
            else embed_batch provider b (splitBySkip ex pairs 0).1))).foldl
          (fun a p => a.set p.1 (some p.2))
          (List.replicate texts.length none)
        = pairs.map (fun p => if p.2 ∈ ex then none else some (E p.1))
      rw [hnew, ← hplen]
      exact hfold
    refine ⟨hmain, ?_, ?_, ?_, ?_, ?_, ?_⟩
    · rw [hmain, List.length_map, hplen]
    · show (splitBySkip ex pairs 0).2.2 = _
      rw [hsplit.2.2, List.enum_eq_enumFrom]
    · show (splitBySkip ex pairs 0).2.1 = _
      rw [hsplit.2.1, List.enum_eq_enumFrom]
    · show ((splitBySkip ex pairs 0).2.2 ++ (splitBySkip ex pairs 0).2.1).Perm _
      rw [hsplit.2.1, hsplit.2.2, ← List.map_append]
      have hp := List.filter_append_perm
        (fun q : Nat × String × String => decide (q.2.2 ∈ ex))
        (List.enumFrom 0 pairs)
      have := hp.map Prod.fst
      rw [← List.enum_eq_enumFrom, List.enum_map_fst, hplen] at this
      exact this
    · show ((splitBySkip ex pairs 0).1).length = _
      rw [hsplit.1, List.length_map]
    · show ((splitBySkip ex pairs 0).2.2).length = _
      rw [hsplit.2.2, List.length_map]
      exact length_filter_enumFrom_snd (fun x => decide (x ∈ ex)) pairs 0

/-- Witness for the C5 theorem: two texts, the second hash already
"existing", a reversing provider. -/
theorem embed_with_skip_spec_witness :
    (embed_with_skip
      (fun batch => ((batch.map (fun t => [(t.length : ℚ)])).enum).reverse)
      4 (fun _ => ["h2"]) ["a", "bb"] (some ["h1", "h2"])).embeddings
      = (["a", "bb"].zip ["h1", "h2"]).map
          (fun p => if p.2 ∈ ["h2"] then none
            else some ((fun t : String => [(t.length : ℚ)]) p.1)) :=
  (embed_with_skip_spec
    (fun batch => ((batch.map (fun t => [(t.length : ℚ)])).enum).reverse)
    (fun t => [(t.length : ℚ)]) 4 (fun _ => ["h2"]) ["a", "bb"]
    ["h1", "h2"] (by omega) (fun batch => List.reverse_perm _)
    (by decide)).1

/-! ## C6 — content hashing: determinism, shape, exact-raw-text input -/

theorem charToNat_inj {c d : Char} (h : c.toNat = d.toNat) : c = d :=
  Char.ext (UInt32.ext h)

theorem foldl_shaRound_length :
    ∀ (l : List Nat) (st : List Nat), st.length = 8 →
      (l.foldl shaRound st).length = 8 := by
  intro l
  induction l with
  | nil => intro st h; exact h
  | cons k ks ih =>
    intro st h
    rw [List.foldl_cons]
    exact ih _ rfl

theorem shaCompress_length (h : List Nat) (block : List Nat)
    (hh : h.length = 8) : (shaCompress h block).length = 8 := by
  unfold shaCompress
  rw [List.length_map, List.length_zip, hh,
    foldl_shaRound_length _ _ hh]
  exact min_self 8

theorem sha256_length (msg : List Nat) : (sha256 msg).length = 8 := by
  unfold sha256
  have main : ∀ (bs : List (List Nat)) (h : List Nat), h.length = 8 →
      (bs.foldl shaCompress h).length = 8 := by
    intro bs
    induction bs with
    | nil => intro h hh; exact hh
    | cons b rest ih =>
      intro h hh
      rw [List.foldl_cons]
      exact ih _ (shaCompress_length h b hh)
  exact main _ shaH0 rfl

theorem flatMap_wordToHex_length :
    ∀ l : List Nat, (l.flatMap wordToHex).length = 8 * l.length := by
  intro l
  induction l with
  | nil => rfl
  | cons x xs ih =>
    rw [List.flatMap_cons, List.length_append, ih]
    simp only [List.length_cons]
    show 8 + 8 * xs.length = 8 * (xs.length + 1)
    omega

theorem sha256_hexdigest_length (msg : List Nat) :
    (sha256_hexdigest msg).length = 64 := by
  show ((sha256 msg).flatMap wordToHex).length = 64
  rw [flatMap_wordToHex_length, sha256_length]

theorem hexChar_mem (n : Nat) (h : n < 16) :
    hexChar n ∈ "0123456789abcdef".data := by
  interval_cases n <;> decide

theorem wordToHex_chars (w : Nat) :
    ∀ c ∈ wordToHex w, c ∈ "0123456789abcdef".data := by
  intro c hc
  simp only [wordToHex, List.mem_cons, List.not_mem_nil, or_false] at hc
  rcases hc with h | h | h | h | h | h | h | h <;>
    (subst h; exact hexChar_mem _ (Nat.mod_lt _ (by omega)))

theorem sha256_hexdigest_chars (msg : List Nat) :
    (sha256_hexdigest msg).data.all
      (fun c => decide (c ∈ "0123456789abcdef".data)) = true := by
  rw [List.all_eq_true]
  intro c hc
  rw [decide_eq_true_eq]
  have hc2 : c ∈ (sha256 msg).flatMap wordToHex := hc
  rcases List.mem_flatMap.mp hc2 with ⟨w, _, hcw⟩
  exact wordToHex_chars w c hcw

theorem utf8EncodeChar_cancel {c d : Char} {r s : List Nat}
    (h : utf8EncodeChar c ++ r = utf8EncodeChar d ++ s) : c = d ∧ r = s := by
  unfold utf8EncodeChar at h
  split_ifs at h <;>
    simp only [List.cons_append, List.nil_append, List.cons.injEq] at h <;>
    first
      | (exfalso; omega)
      | (obtain ⟨e1, e2⟩ := h; exact ⟨charToNat_inj (by omega), e2⟩)
      | (obtain ⟨e1, e2, e3⟩ := h; exact ⟨charToNat_inj (by omega), e3⟩)
      | (obtain ⟨e1, e2, e3, e4⟩ := h;
          exact ⟨charToNat_inj (by omega), e4⟩)
      | (obtain ⟨e1, e2, e3, e4, e5⟩ := h;
          exact ⟨charToNat_inj (by omega), e5⟩)

theorem utf8EncodeChar_ne_nil (c : Char) : utf8EncodeChar c ≠ [] := by
  unfold utf8EncodeChar
  split_ifs <;> simp

theorem utf8_flatMap_inj :
    ∀ (l1 l2 : List Char),
      l1.flatMap utf8EncodeChar = l2.flatMap utf8EncodeChar → l1 = l2 := by
  intro l1
  induction l1 with
  | nil =>
    intro l2 h
    cases l2 with
    | nil => rfl
    | cons b bs =>
      rw [List.flatMap_cons] at h
      exact absurd (List.append_eq_nil.mp h.symm).1 (utf8EncodeChar_ne_nil b)
  | cons a as ih =>
    intro l2 h
    cases l2 with
    | nil =>
      rw [List.flatMap_cons] at h
      exact absurd (List.append_eq_nil.mp h).1 (utf8EncodeChar_ne_nil a)
    | cons b bs =>
      rw [List.flatMap_cons, List.flatMap_cons] at h
      obtain ⟨hab, hrest⟩ := utf8EncodeChar_cancel h
      rw [hab, ih bs hrest]

theorem utf8Encode_injective {x y : String}
    (h : utf8Encode x = utf8Encode y) : x = y := by
  obtain ⟨dx⟩ := x
  obtain ⟨dy⟩ := y
  exact congrArg String.mk (utf8_flatMap_inj dx dy h)

/-- C6 (corrected claim's counterexample): the storage-helper hash
`SupabaseManager.compute_content_hash` normalizes with
`content.strip().lower()` before hashing, so two strings that differ
only in letter case and trailing whitespace receive the *same* digest —
it is not computed on the exact raw chunk text. -/
theorem supabase_hash_normalization_counterexample :
    supabase_compute_content_hash "Abc " = supabase_compute_content_hash "abc"
    ∧ "Abc " ≠ "abc"
    ∧ pyLower (pyStrip "Abc ") = pyLower (pyStrip "abc") := by
  refine ⟨?_, by decide, by decide⟩
  show sha256_hexdigest (utf8Encode (pyLower (pyStrip "Abc ")))
      = sha256_hexdigest (utf8Encode (pyLower (pyStrip "abc")))
  rw [show pyLower (pyStrip "Abc ") = pyLower (pyStrip "abc") by decide]

/-- C6 (amended). The embeddings-module `compute_content_hash` is the
SHA-256 hex digest of the exact raw text's UTF-8 bytes: it is
deterministic, always a 64-character lowercase-hex string, and distinct
strings — including case or outer-whitespace variants — are hashed as
digests of distinct byte inputs (UTF-8 encoding is injective).  The
storage helper `SupabaseManager.compute_content_hash`, by contrast,
hashes `strip().lower()`-normalized content. -/
theorem content_hash_spec :
    (∀ s : String, compute_content_hash s = sha256_hexdigest (utf8Encode s))
    ∧ (∀ s : String, (compute_content_hash s).length = 64)
    ∧ (∀ s : String, (compute_content_hash s).data.all
        (fun c => decide (c ∈ "0123456789abcdef".data)) = true)
    ∧ (∀ x y : String, x ≠ y → utf8Encode x ≠ utf8Encode y)
    ∧ (∀ s : String, supabase_compute_content_hash s
        = sha256_hexdigest (utf8Encode (pyLower (pyStrip s)))) := by
  refine ⟨fun s => rfl, fun s => sha256_hexdigest_length _,
    fun s => sha256_hexdigest_chars _, ?_, fun s => rfl⟩
  intro x y hxy he
  exact hxy (utf8Encode_injective he)

/-- Witness for the C6 theorem's distinct-inputs hypothesis. -/
theorem content_hash_spec_witness :
    utf8Encode "a" ≠ utf8Encode "b" :=
  (content_hash_spec).2.2.2.1 "a" "b" (by decide)

/-! ## C8 — chunk-upsert idempotence and its actual dedup key -/

theorem rowMatchesChunk_insertRow (c : ChunkRecord) :
    rowMatchesChunk (insertRow c) c = true := by
  unfold rowMatchesChunk insertRow
  cases c.pr_number <;> cases c.head_sha <;> simp

theorem upsert_db_mono :
    ∀ (chunks : List ChunkRecord) (acc : UpsertOutcome) (row : DBRow),
      row ∈ acc.db → row ∈ (chunks.foldl upsertStep acc).db := by
  intro chunks
  induction chunks with
  | nil => intro acc row h; exact h
  | cons c rest ih =>
    intro acc row h
    rw [List.foldl_cons]
    apply ih
    unfold upsertStep
    split_ifs
    · exact h
    · exact List.mem_append_left _ h

theorem upsert_matches_all :
    ∀ (chunks : List ChunkRecord) (acc : UpsertOutcome) (c : ChunkRecord),
      c ∈ chunks →
      ∃ row ∈ (chunks.foldl upsertStep acc).db, rowMatchesChunk row c = true := by
  intro chunks
  induction chunks with
  | nil => intro acc c h; simp at h
  | cons c0 rest ih =>
    intro acc c hc
    rw [List.foldl_cons]
    rcases List.mem_cons.mp hc with hc | hc
    · subst hc
      by_cases hany : acc.db.any (fun row => rowMatchesChunk row c) = true
      · rcases List.any_eq_true.mp hany with ⟨row, hrow, hmatch⟩
        refine ⟨row, ?_, hmatch⟩
        apply upsert_db_mono
        unfold upsertStep
        rw [if_pos hany]
        exact hrow
      · refine ⟨insertRow c, ?_, rowMatchesChunk_insertRow c⟩
        apply upsert_db_mono
        unfold upsertStep
        rw [if_neg hany]
        exact List.mem_append_right _ (List.mem_singleton_self _)
    · exact ih _ c hc

theorem upsert_skip_all :
    ∀ (chunks : List ChunkRecord) (acc : UpsertOutcome),
      (∀ c ∈ chunks, acc.db.any (fun row => rowMatchesChunk row c) = true) →
      chunks.foldl upsertStep acc =
        { db := acc.db, upserted := acc.upserted,
          skipped := acc.skipped + chunks.length } := by
  intro chunks
  induction chunks with
  | nil => intro acc _; simp
  | cons c rest ih =>
    intro acc hall
    rw [List.foldl_cons]
    have hany := hall c (List.mem_cons_self _ _)
    have hstep : upsertStep acc c = { acc with skipped := acc.skipped + 1 } := by
      unfold upsertStep
      rw [if_pos hany]
    rw [hstep]
    rw [ih ⟨acc.db, acc.upserted, acc.skipped + 1⟩
      (fun c2 hc2 => hall c2 (List.mem_cons_of_mem _ hc2))]
    simp only [List.length_cons]
    congr 1
    omega

/-- C8 (corrected claim's counterexample): the duplicate check never
filters on `source_id`, so a second notion chunk with identical content
and scope but a different `source_id` — a distinct spec identity key —
is skipped instead of inserted. -/
theorem upsert_ignores_source_id_counterexample :
    specIdentityKey notionChunkA ≠ specIdentityKey notionChunkB
    ∧ (upsert_chunks [] [notionChunkA, notionChunkB]).upserted = 1
    ∧ (upsert_chunks [] [notionChunkA, notionChunkB]).skipped = 1 := by
  refine ⟨by decide, by decide, by decide⟩

/-- C8 (amended). `upsert_chunks` inserts a chunk exactly when no
stored row passes the code's duplicate query — equality on repo,
source_type and content_hash, equality on pr_number/head_sha only when
the chunk carries them (no constraint otherwise), and
equal-or-both-null path, start_line and end_line; `source_id` is never
part of the check.  A freshly inserted row matches its own chunk, so
upserting the same chunk list a second time performs zero inserts,
skips every chunk, and leaves the table unchanged. -/
theorem upsert_chunks_spec (db : List DBRow) (chunks : List ChunkRecord)
    (c : ChunkRecord) :
    (upsert_chunks db [c] =
      if db.any (fun row => rowMatchesChunk row c) then
        { db := db, upserted := 0, skipped := 1 }
      else { db := db ++ [insertRow c], upserted := 1, skipped := 0 })
    ∧ rowMatchesChunk (insertRow c) c = true
    ∧ upsert_chunks (upsert_chunks db chunks).db chunks =
        { db := (upsert_chunks db chunks).db, upserted := 0,
          skipped := chunks.length } := by
  refine ⟨?_, rowMatchesChunk_insertRow c, ?_⟩
  · show upsertStep { db := db, upserted := 0, skipped := 0 } c = _
    unfold upsertStep
    split_ifs <;> rfl
  · have hall : ∀ c2 ∈ chunks,
        ((upsert_chunks db chunks).db).any
          (fun row => rowMatchesChunk row c2) = true := by
      intro c2 hc2
      rcases upsert_matches_all chunks
        { db := db, upserted := 0, skipped := 0 } c2 hc2 with ⟨row, hrow, hm⟩
      exact List.any_eq_true.mpr ⟨row, hrow, hm⟩
    show chunks.foldl upsertStep _ = _
    rw [upsert_skip_all chunks
      { db := (upsert_chunks db chunks).db, upserted := 0, skipped := 0 } hall]
    simp

/-! ## C9 — a failing scope search degrades to an empty scope result -/

/-- C9. `search_scope` turns a raised search call into an empty result
list, and `retrieve` run with a search function that raises on an
arbitrary subset of scopes returns exactly what it returns when those
scopes yield zero rows: the merged candidates of the remaining scopes,
the intent result and the stats, with no error propagated. -/
theorem retrieve_scope_error_resilient (eir : Bool)
    (embedFn : String → List ℚ)
    (f : List ℚ → RetrievalScope → Except String (List ChunkRow))
    (failing : RetrievalScope → Bool) (err : String)
    (query user_id : String) (repo : Option String) (prn : Option Int)
    (sha : Option String) (top_k : Nat) :
    (∀ rows : List ChunkRow, search_scope (Except.ok rows) = rows)
    ∧ (∀ e : String, search_scope (Except.error e) = ([] : List ChunkRow))
    ∧ retrieve eir embedFn
        (fun emb scope =>
          if failing scope then Except.error err else f emb scope)
        query user_id repo prn sha top_k
      = retrieve eir embedFn
        (fun emb scope =>
          if failing scope then Except.ok [] else f emb scope)
        query user_id repo prn sha top_k := by
  refine ⟨fun rows => rfl, fun e => rfl, ?_⟩
  have hs : ∀ (emb : List ℚ) (scope : RetrievalScope),
      search_scope (if failing scope then Except.error err else f emb scope)
        = search_scope
            (if failing scope then Except.ok [] else f emb scope) := by
    intro emb scope
    by_cases h : failing scope <;> simp [h, search_scope]
  simp only [retrieve, hs]

/-! ## C10 — id-less rows collapse under merge deduplication -/

theorem dedup_mem_sub :
    ∀ (l : List ScoredChunk) (seen : List String) (v : ScoredChunk),
      v ∈ dedupById seen l → v ∈ l := by
  intro l
  induction l with
  | nil => intro seen v h; simp [dedupById] at h
  | cons sc rest ih =>
    intro seen v h
    simp only [dedupById] at h
    split_ifs at h with hmem
    · exact List.mem_cons_of_mem _ (ih seen v h)
    · rcases List.mem_cons.mp h with h | h
      · exact h ▸ List.mem_cons_self _ _
      · exact List.mem_cons_of_mem _ (ih _ v h)

theorem dedup_mem_not_seen :
    ∀ (l : List ScoredChunk) (seen : List String) (v : ScoredChunk),
      v ∈ dedupById seen l → v.idStr ∉ seen := by
  intro l
  induction l with
  | nil => intro seen v h; simp [dedupById] at h
  | cons sc rest ih =>
    intro seen v h
    simp only [dedupById] at h
    split_ifs at h with hmem
    · exact ih seen v h
    · rcases List.mem_cons.mp h with h | h
      · rw [h]; exact hmem
      · have := ih _ v h
        intro hcon
        exact this (List.mem_cons_of_mem _ hcon)

theorem dedup_first_idless :
    ∀ (l : List ScoredChunk) (seen : List String) (v : ScoredChunk),
      v ∈ dedupById seen l → v.idStr = "" → "" ∉ seen →
      l.find? (fun x => decide (x.idStr = "")) = some v := by
  intro l
  induction l with
  | nil => intro seen v h; simp [dedupById] at h
  | cons sc rest ih =>
    intro seen v h hid hseen
    simp only [dedupById] at h
    split_ifs at h with hmem
    · have hne : sc.idStr ≠ "" := fun he => hseen (he ▸ hmem)
      rw [List.find?_cons_of_neg _ (by simp [hne])]
      exact ih seen v h hid hseen
    · rcases List.mem_cons.mp h with h | h
      · subst h
        rw [List.find?_cons_of_pos _ (by simp [hid])]
      · by_cases hsc : sc.idStr = ""
        · exfalso
          have := dedup_mem_not_seen rest (sc.idStr :: seen) v h
          exact this (by rw [hid, ← hsc]; exact List.mem_cons_self _ _)
        · rw [List.find?_cons_of_neg _ (by simp [hsc])]
          exact ih _ v h hid (by
            intro hcon
            rcases List.mem_cons.mp hcon with hcon | hcon
            · exact hsc hcon.symm
            · exact hseen hcon)

theorem dedup_filter_idless_le :
    ∀ (l : List ScoredChunk) (seen : List String),
      ((dedupById seen l).filter (fun sc => decide (sc.idStr = ""))).length
        ≤ (if "" ∈ seen then 0 else 1) := by
  intro l
  induction l with
  | nil => intro seen; simp [dedupById]
  | cons sc rest ih =>
    intro seen
    simp only [dedupById]
    by_cases hmem : sc.idStr ∈ seen
    · rw [if_pos hmem]
      exact ih seen
    · rw [if_neg hmem, List.filter_cons]
      by_cases hsc : sc.idStr = ""
      · rw [if_pos (by simp [hsc])]
        have hrec := ih (sc.idStr :: seen)
        rw [if_pos (by rw [hsc]; exact List.mem_cons_self _ _)] at hrec
        have hnot : "" ∉ seen := fun hcon => hmem (by rw [hsc]; exact hcon)
        rw [if_neg hnot]
        simp only [List.length_cons]
        omega
      · rw [if_neg (by simp [hsc])]
        have hrec := ih (sc.idStr :: seen)
        by_cases hse : "" ∈ seen
        · rw [if_pos (List.mem_cons_of_mem _ hse)] at hrec
          rw [if_pos hse]
          exact hrec
        · rw [if_neg (fun hcon =>
            (List.mem_cons.mp hcon).elim (fun h => hsc h.symm) hse)] at hrec
          rw [if_neg hse]
          exact hrec

theorem find?_at_index {α} (p : α → Bool) :
    ∀ (l : List α) (i : Nat) (hi : i < l.length),
      (∀ m (hm : m < l.length), m < i → p (l.get ⟨m, hm⟩) = false) →
      p (l.get ⟨i, hi⟩) = true →
      l.find? p = some (l.get ⟨i, hi⟩) := by
  intro l
  induction l with
  | nil => intro i hi; simp at hi
  | cons a rest ih =>
    intro i hi hbefore hp
    cases i with
    | zero => exact List.find?_cons_of_pos _ hp
    | succ n =>
      have ha : p a = false :=
        hbefore 0 (by simp) (by omega)
      rw [List.find?_cons_of_neg _ (by simp [ha])]
      exact ih n (by simpa using hi)
        (fun m hm hmn => hbefore (m + 1) (by simpa using hm) (by omega)) hp

/-- C10. A retrieved row without an `id` key gets the empty string as
its chunk id, so `merge_and_sort`'s seen-ids deduplication keeps at
most one id-less chunk — the first one — and silently drops every
other distinct id-less chunk from the merged output. -/
theorem merge_and_sort_drops_idless (l : List ScoredChunk) (k : Nat)
    (i j : Nat) (hi : i < l.length) (hj : j < l.length) (hij : i < j)
    (hfirst : ∀ m (hm : m < l.length), m < i → (l.get ⟨m, hm⟩).idStr ≠ "")
    (h1 : (l.get ⟨i, hi⟩).chunk.rowId = none)
    (h2 : (l.get ⟨j, hj⟩).chunk.rowId = none)
    (hne : l.get ⟨j, hj⟩ ≠ l.get ⟨i, hi⟩) :
    (∀ sc : ScoredChunk, sc.chunk.rowId = none → sc.idStr = "")
    ∧ ((merge_and_sort l k).filter
        (fun sc => decide (sc.chunk.rowId = none))).length ≤ 1
    ∧ l.get ⟨j, hj⟩ ∉ merge_and_sort l k := by
  have hid : ∀ sc : ScoredChunk, sc.chunk.rowId = none → sc.idStr = "" := by
    intro sc h
    unfold ScoredChunk.idStr
    rw [h]
    rfl
  refine ⟨hid, ?_, ?_⟩
  · have hsub : (merge_and_sort l k).Sublist
        ((dedupById [] l).mergeSort
          (fun a b => decide (b.weighted_score ≤ a.weighted_score))) :=
      List.take_sublist _ _
    have step1 : ((merge_and_sort l k).filter
        (fun sc => decide (sc.chunk.rowId = none))).length
          ≤ (((dedupById [] l).mergeSort
              (fun a b => decide (b.weighted_score ≤ a.weighted_score))).filter
            (fun sc => decide (sc.chunk.rowId = none))).length :=
      (hsub.filter _).length_le
    have step2 : (((dedupById [] l).mergeSort
        (fun a b => decide (b.weighted_score ≤ a.weighted_score))).filter
          (fun sc => decide (sc.chunk.rowId = none))).length
        = ((dedupById [] l).filter
            (fun sc => decide (sc.chunk.rowId = none))).length := by
      rw [← List.countP_eq_length_filter, ← List.countP_eq_length_filter]
      exact (List.mergeSort_perm (dedupById [] l) _).countP_eq _
    have step3 : ((dedupById [] l).filter
        (fun sc => decide (sc.chunk.rowId = none))).length
          ≤ ((dedupById [] l).filter
            (fun sc => decide (sc.idStr = ""))).length := by
      rw [← List.countP_eq_length_filter, ← List.countP_eq_length_filter]
      apply List.countP_mono_left
      intro sc _ hp
      rw [decide_eq_true_eq] at hp
      rw [decide_eq_true_eq]
      exact hid sc hp
    have step4 := dedup_filter_idless_le l []
    simp only [List.not_mem_nil, if_neg, if_false] at step4
    omega
  · intro hmem
    set v := l.get ⟨j, hj⟩ with hv
    have hv1 : v ∈ (dedupById [] l).mergeSort
        (fun a b => decide (b.weighted_score ≤ a.weighted_score)) :=
      List.mem_of_mem_take hmem
    have hv2 : v ∈ dedupById [] l :=
      (List.mergeSort_perm (dedupById [] l) _).mem_iff.mp hv1
    have hvid : v.idStr = "" := hid v h2
    have hfind1 : l.find? (fun x => decide (x.idStr = "")) = some v :=
      dedup_first_idless l [] v hv2 hvid (by simp)
    have hfind2 : l.find? (fun x => decide (x.idStr = ""))
        = some (l.get ⟨i, hi⟩) := by
      apply find?_at_index
      · intro m hm hmi
        simpa using hfirst m hm hmi
      · exact decide_eq_true (hid _ h1)
    rw [hfind1] at hfind2
    exact hne (Option.some.inj hfind2)

/-- Witness for the C10 theorem: of two distinct id-less chunks the
second is dropped from the merged output. -/
theorem merge_and_sort_drops_idless_witness :
    idlessChunkB ∉ merge_and_sort [idlessChunkA, idlessChunkB] 40 := by
  have h := merge_and_sort_drops_idless [idlessChunkA, idlessChunkB] 40
    0 1 (by decide) (by decide) (by decide)
    (fun m hm hcon => absurd hcon (by omega)) rfl rfl (by decide)
  exact h.2.2

/-! ## C7 — file discovery: the ignore-glob translation bug -/

/-- C7.  `matches_glob` converts `node_modules/**` into the regex
`^node_modules/.[^/]*$`, which matches neither the directory path
(`node_modules` or `node_modules/`) nor any path nested more than one
level or rooted elsewhere — so the walk never prunes a `node_modules`
directory under an include root, and `discover_files` returns
`apps/node_modules/x.js`, contradicting both the spec and the
repository's own test
(`tests/test_fast_discovery.py` asserts
`should_ignore_directory(Path('node_modules'), Path('node_modules'),
config)[0] is True`).  A binary single-file include root is returned
too, since single-file roots bypass every filter. -/
theorem discovery_node_modules_code_bug :
    (discover_files DiscoveryConfig.defaultConfig ["repo"] nodeModulesFS).1
      = ["apps/node_modules/x.js"]
    ∧ should_ignore_directory "node_modules" "node_modules"
        DiscoveryConfig.defaultConfig = false
    ∧ should_ignore_directory "node_modules" "apps/node_modules"
        DiscoveryConfig.defaultConfig = false
    ∧ matches_glob "node_modules/package.json" "node_modules/**" = true
    ∧ matches_glob "node_modules/a/b.js" "node_modules/**" = false
    ∧ matches_glob "apps/node_modules/x.js" "node_modules/**" = false
    ∧ (discover_files DiscoveryConfig.defaultConfig ["repo"]
        binaryReadmeFS).1 = ["README.md"]
    ∧ is_binary_file [77, 0, 78] = true := by
  refine ⟨by decide, by decide, by decide, by decide, by decide, by decide,
    by decide, by decide⟩

end FactGap
